import Mathlib

/-!
Verification development for the connections-clone repository.

The round engine lives in `src/app/_hooks/use-game-logic.ts`; the page glue
(`controlsDisabled`, `onClickCell`, the submit button) lives in
`src/app/page.tsx`; the puzzle provider lives in `src/app/api/puzzle/route.ts`.
Each definition below is a shallow embedding of the correspondingly named
TypeScript function.

JavaScript objects are compared by reference in `Array.prototype.includes`.
To embed this, every `Word` value carries a `ref` tag that models the object
identity of the JavaScript object holding it: whenever the source creates a
new object via a spread (`{...item, selected: ...}`), the embedding gives the
new value a tag taken from a monotone allocation counter `fresh` carried in
the state, so re-created objects never compare equal to their older versions.
-/

/-- Embeds the `Category` type of `src/app/_types`: a name, a level 1..4 and
the four member words (`items`). -/
structure Category where
  category : String
  level : Nat
  items : List String
  deriving DecidableEq, Repr

/-- Embeds the `Word` type of `src/app/_types` (a board tile): the text, the
ground-truth level and the mutable `selected` flag, plus the `ref` tag that
models JavaScript object identity (see the file comment). -/
structure Word where
  ref : Nat
  word : String
  level : Nat
  selected : Bool
  deriving DecidableEq, Repr

/-- Embeds the result tags of `SubmitResult` in `src/app/_types`. -/
inductive SubmitResult where
  | correct
  | incorrect
  | oneAway
  | same
  | win
  | loss
  deriving DecidableEq, Repr

/-- Embeds the state held by `useGameLogic` in `src/app/_hooks/use-game-logic.ts`:
`puzzleCategories` (the hook argument, `null` when no puzzle is loaded),
`gameWords`, `clearedCategories`, `isWon`, `isLost`, `mistakesRemaining`
(an `Int`: the code has no lower bound guard) and `guessHistoryRef.current`.
`fresh` is the allocation counter for `Word.ref` tags. -/
structure GameState where
  puzzleCategories : Option (List Category)
  gameWords : List Word
  clearedCategories : List Category
  isWon : Bool
  isLost : Bool
  mistakesRemaining : Int
  guessHistory : List (List Word)
  fresh : Nat
  deriving DecidableEq, Repr

/-- Embeds the `selectedWords` memo (use-game-logic.ts line 7):
`gameWords.filter((item) => item.selected)`. -/
def selectedWords (s : GameState) : List Word :=
  s.gameWords.filter (fun w => w.selected)

/-- Embeds `selectWord` (use-game-logic.ts lines 37-49). The matched item is
replaced by a spread copy, so it receives a fresh `ref`; the counter advances
exactly when some item matched (JavaScript allocates only then). -/
def selectWord (w : Word) (s : GameState) : GameState :=
  let sel := selectedWords s
  let hit := s.gameWords.any (fun item => w.word == item.word)
  { s with
    gameWords := s.gameWords.map (fun item =>
      if w.word == item.word then
        { item with
          ref := s.fresh
          selected := if sel.length < 4 then !item.selected else false }
      else item)
    fresh := if hit then s.fresh + 1 else s.fresh }

/-- Embeds `deselectAllWords` (use-game-logic.ts lines 55-57): every word is
replaced by a spread copy with `selected: false`. -/
def deselectAllWords (s : GameState) : GameState :=
  { s with
    gameWords := s.gameWords.map (fun item => { item with ref := s.fresh, selected := false })
    fresh := if s.gameWords.isEmpty then s.fresh else s.fresh + 1 }

/-- Embeds the repeated-guess test of `getSubmitResult` (use-game-logic.ts
lines 62-64): `guessHistoryRef.current.some((guess) => guess.every((word) =>
selectedWords.includes(word)))`. `includes` compares `Word` values, whose
`ref` component models JavaScript reference equality. -/
def sameGuess (s : GameState) : Bool :=
  s.guessHistory.any (fun g => g.all (fun w => (selectedWords s).contains w))

/-- Embeds the `likenessCounts` computation (use-game-logic.ts lines 70-73):
for each category, the number of selected words whose text is in its items. -/
def likenessCounts (cats : List Category) (sel : List Word) : List Nat :=
  cats.map (fun c => (sel.filter (fun item => c.items.contains item.word)).length)

/-- Embeds `Math.max(...likenessCounts)` (use-game-logic.ts line 75). For the
nonempty count lists that occur (the puzzle always has categories) the fold
agrees with `Math.max` because every count is a natural number. -/
def maxLikeness (cats : List Category) (sel : List Word) : Nat :=
  (likenessCounts cats sel).foldl max 0

/-- Embeds `likenessCounts.indexOf(maxLikeness)` (use-game-logic.ts line 76). -/
def maxLikenessIdx (cats : List Category) (sel : List Word) : Nat :=
  (likenessCounts cats sel).indexOf (maxLikeness cats sel)

/-- Embeds `getCorrectResult` (use-game-logic.ts lines 85-94): appends the
matched category to `clearedCategories`, removes its words from the board,
and reports `win` when this was the fourth cleared category (the length test
reads the pre-update value, as the stale React closure does). -/
def getCorrectResult (c : Category) (s : GameState) : SubmitResult × GameState :=
  let s1 := { s with
    clearedCategories := s.clearedCategories ++ [c]
    gameWords := s.gameWords.filter (fun item => !(c.items.contains item.word)) }
  if s.clearedCategories.length == 3 then (.win, s1) else (.correct, s1)

/-- Embeds `getIncorrectResult` (use-game-logic.ts lines 96-106): decrements
`mistakesRemaining`, reports `loss` exactly when the pre-decrement value was
`1`, else `one-away` when the maximum likeness is `3`, else `incorrect`. -/
def getIncorrectResult (ml : Nat) (s : GameState) : SubmitResult × GameState :=
  let s1 := { s with mistakesRemaining := s.mistakesRemaining - 1 }
  if s.mistakesRemaining == 1 then (.loss, s1)
  else if ml == 3 then (.oneAway, s1)
  else (.incorrect, s1)

/-- Embeds `getSubmitResult` (use-game-logic.ts lines 59-83). With no puzzle
it returns `incorrect` untouched; a repeated guess returns `same` untouched;
otherwise the selection is pushed onto the guess history and the likeness
maximum routes to `getCorrectResult` or `getIncorrectResult`. The category
lookup `puzzleCategories[maxIndex]` is total in the source because the index
of the maximum is always in range; the embedding supplies a dummy default. -/
def getSubmitResult (s : GameState) : SubmitResult × GameState :=
  match s.puzzleCategories with
  | none => (.incorrect, s)
  | some cats =>
    if sameGuess s then (.same, s)
    else
      let s1 := { s with guessHistory := s.guessHistory ++ [selectedWords s] }
      if maxLikeness cats (selectedWords s) == 4 then
        getCorrectResult (cats.getD (maxLikenessIdx cats (selectedWords s)) ⟨"", 0, []⟩) s1
      else
        getIncorrectResult (maxLikeness cats (selectedWords s)) s1

/-- One reveal step of the loop body in `handleLoss` (use-game-logic.ts lines
117-123): append the category and filter its words off the board. -/
def revealStep (st : GameState) (c : Category) : GameState :=
  { st with
    clearedCategories := st.clearedCategories ++ [c]
    gameWords := st.gameWords.filter (fun item => !(c.items.contains item.word)) }

/-- Embeds `handleLoss` (use-game-logic.ts lines 108-127), with the real-time
pacing delays abstracted away (they do not change the state): deselect all
words, reveal the not-yet-cleared categories in puzzle order, set `isLost`. -/
def handleLoss (s : GameState) : GameState :=
  match s.puzzleCategories with
  | none => s
  | some cats =>
    let remaining := cats.filter (fun c => !(s.clearedCategories.contains c))
    let s2 := remaining.foldl revealStep (deselectAllWords s)
    { s2 with isLost := true }

/-- Embeds `handleWin` (use-game-logic.ts lines 129-132), with the delay
abstracted away: sets `isWon`. -/
def handleWin (s : GameState) : GameState :=
  { s with isWon := true }

/-- Embeds the board construction in the puzzle-reset effect
(use-game-logic.ts lines 28-32): one word per category item, carrying the
category level, built unselected. The fresh objects share the tag `0`;
the allocation counter of the state then starts at `1`. -/
def initWords (p : List Category) : List Word :=
  (p.map (fun c => c.items.map (fun w => ({ ref := 0, word := w, level := c.level, selected := false } : Word)))).flatten

/-- The engine state right after the puzzle-reset effect (use-game-logic.ts
lines 19-35) ran for puzzle `p`, with `ws` the (shuffled) board. -/
def mkInitState (p : List Category) (ws : List Word) : GameState :=
  { puzzleCategories := some p
    gameWords := ws
    clearedCategories := []
    isWon := false
    isLost := false
    mistakesRemaining := 4
    guessHistory := []
    fresh := 1 }

/-- Embeds `controlsDisabled` (page.tsx lines 94-95):
`loadingPuzzle || !!puzzleError || !puzzleCategories || puzzleCategories.length !== 4`. -/
def controlsDisabled (loadingPuzzle puzzleError : Bool) (s : GameState) : Bool :=
  loadingPuzzle || puzzleError ||
    (match s.puzzleCategories with
     | none => true
     | some cats => cats.length != 4)

/-- Embeds `onClickCell` (page.tsx lines 131-137): return unchanged when
`controlsDisabled`, otherwise run `selectWord`. -/
def onClickCell (loadingPuzzle puzzleError : Bool) (w : Word) (s : GameState) : GameState :=
  if controlsDisabled loadingPuzzle puzzleError s then s else selectWord w s

/-- Embeds the `unclickable` guard of the Submit button (page.tsx line 162):
`selectedWords.length !== 4 || submitted || controlsDisabled`. -/
def submitUnclickable (loadingPuzzle puzzleError submitted : Bool) (s : GameState) : Bool :=
  ((selectedWords s).length != 4) || submitted || controlsDisabled loadingPuzzle puzzleError s

/-- Embeds one full submit interaction of `handleSubmit` (page.tsx lines
97-129): run `getSubmitResult`, then `handleLoss` on a `loss` result and
`handleWin` on a `win` result (awaited before anything else can run). -/
def postSubmit (s : GameState) : GameState :=
  match getSubmitResult s with
  | (.loss, s1) => handleLoss s1
  | (.win, s1) => handleWin s1
  | (_, s1) => s1

/-- The round states reachable from a fresh round on the fixed puzzle `p`
through the interactions the page exposes. `shuffleWords` (whose
`shuffleArray` helper in `src/app/_utils` is outside `src/`) is represented,
following the spec, as replacing the board by an arbitrary permutation of
itself; submitting requires an in-progress round and four selected words,
which is how page.tsx gates the Submit button. -/
inductive Reachable (p : List Category) : GameState → Prop where
  | init (ws : List Word) : ws.Perm (initWords p) → Reachable p (mkInitState p ws)
  | select (s : GameState) (w : Word) : Reachable p s → Reachable p (selectWord w s)
  | deselect (s : GameState) : Reachable p s → Reachable p (deselectAllWords s)
  | shuffle (s : GameState) (ws : List Word) : Reachable p s → ws.Perm s.gameWords →
      Reachable p { s with gameWords := ws }
  | submit (s : GameState) : Reachable p s → s.isWon = false → s.isLost = false →
      (selectedWords s).length = 4 → Reachable p (postSubmit s)

/-- A puzzle as guaranteed by the provider (`src/app/api/puzzle/route.ts`):
four categories sorted by level with levels exactly 1,2,3,4, four items
each, and 16 pairwise distinct words. -/
def ValidPuzzle (p : List Category) : Prop :=
  p.map (fun c => c.level) = [1, 2, 3, 4] ∧
  (∀ c ∈ p, c.items.length = 4) ∧
  ((p.map (fun c => c.items)).flatten).Nodup

instance : DecidablePred ValidPuzzle := fun p => by
  unfold ValidPuzzle; infer_instance

/-- The texts of the words currently on the board. -/
def boardTexts (s : GameState) : List String :=
  s.gameWords.map (fun w => w.word)

/-- The categories of `p` not yet cleared in state `s` (the same expression
`handleLoss` computes as `remainingCategories`). -/
def unclearedCats (p : List Category) (s : GameState) : List Category :=
  p.filter (fun c => !(s.clearedCategories.contains c))

/-- Board/cleared coherence: the texts on the board are exactly the items of
the not-yet-cleared categories, up to order. -/
def Coherent (p : List Category) (s : GameState) : Prop :=
  (boardTexts s).Perm (((unclearedCats p s).map (fun c => c.items)).flatten)

/-- The engine invariant maintained by every reachable state of a round on a
valid puzzle. -/
def EngineInv (p : List Category) (s : GameState) : Prop :=
  s.puzzleCategories = some p ∧
  Coherent p s ∧
  (∀ c ∈ s.clearedCategories, c ∈ p) ∧
  s.clearedCategories.Nodup ∧
  ((s.isWon = true ∨ s.isLost = true) → s.gameWords = []) ∧
  (selectedWords s).length ≤ 4

instance (p : List Category) : DecidablePred (EngineInv p) := fun s => by
  unfold EngineInv Coherent; infer_instance

/-- A concrete valid puzzle used to instantiate theorems on closed inputs. -/
def demoPuzzle : List Category :=
  [⟨"FRUIT", 1, ["APPLE", "PEAR", "PLUM", "KIWI"]⟩,
   ⟨"COLOR", 2, ["RED", "BLUE", "GREEN", "GOLD"]⟩,
   ⟨"METAL", 3, ["IRON", "STEEL", "TIN", "LEAD"]⟩,
   ⟨"TOOL", 4, ["SAW", "AXE", "HAMMER", "DRILL"]⟩]

/-- The freshly initialized round on `demoPuzzle` (identity shuffle). -/
def demoInit : GameState := mkInitState demoPuzzle (initWords demoPuzzle)

/-- Click the cells carrying the given texts, in order, as `onClickCell`
forwards clicks to `selectWord` (only the `word` field of the clicked tile
is consulted by `selectWord`). -/
def selectTexts (ts : List String) (s : GameState) : GameState :=
  ts.foldl (fun st t => selectWord ⟨0, t, 0, false⟩ st) s

/-- A state with `APPLE, PEAR, PLUM, KIWI` (the full FRUIT category)
selected, ready to submit a correct guess. -/
def demoSelected : GameState := selectTexts ["APPLE", "PEAR", "PLUM", "KIWI"] demoInit

/-- A state right after submitting the wrong guess `APPLE, PEAR, PLUM, RED`:
the guess is in the history and one mistake is spent. -/
def demoAfterGuess : GameState :=
  (getSubmitResult (selectTexts ["APPLE", "PEAR", "PLUM", "RED"] demoInit)).2

/-- The same four words selected again after `deselectAllWords`: the board
tiles are now fresh JavaScript objects. -/
def demoReselected : GameState :=
  selectTexts ["APPLE", "PEAR", "PLUM", "RED"] (deselectAllWords demoAfterGuess)

/-- A state with no loaded puzzle. -/
def noPuzzleState : GameState :=
  { puzzleCategories := none
    gameWords := []
    clearedCategories := []
    isWon := false
    isLost := false
    mistakesRemaining := 4
    guessHistory := []
    fresh := 0 }

/-- Play out four distinct wrong guesses from `demoInit`: each step below
alternates cell clicks and a submit, ending in a loss and its reveal. -/
def demoStep1 : GameState := selectTexts ["APPLE", "PEAR", "PLUM", "RED"] demoInit

/-- After the first wrong submit (one away, three mistakes left). -/
def demoStep2 : GameState := postSubmit demoStep1

/-- Swap `RED` for `BLUE` in the selection. -/
def demoStep3 : GameState := selectTexts ["RED", "BLUE"] demoStep2

/-- After the second wrong submit. -/
def demoStep4 : GameState := postSubmit demoStep3

/-- Swap `BLUE` for `GREEN`. -/
def demoStep5 : GameState := selectTexts ["BLUE", "GREEN"] demoStep4

/-- After the third wrong submit. -/
def demoStep6 : GameState := postSubmit demoStep5

/-- Swap `GREEN` for `GOLD`. -/
def demoStep7 : GameState := selectTexts ["GREEN", "GOLD"] demoStep6

/-- After the fourth wrong submit: the loss and its reveal sequence. -/
def demoStep8 : GameState := postSubmit demoStep7

/-- A state like `demoStep1` but with the mistake budget already exhausted,
to exercise the missing lower-bound guard of `getIncorrectResult`. -/
def demoZeroMistakes : GameState := { demoStep1 with mistakesRemaining := 0 }

/-- The state after clearing FRUIT from `demoSelected`, giving a nonempty
cleared list. -/
def demoAfterCorrect : GameState := (getSubmitResult demoSelected).2

/-- Forget the `ref` tag of a word, keeping the observable tile content. -/
def wordView (w : Word) : String × Nat × Bool :=
  (w.word, w.level, w.selected)

/-!
The puzzle provider, `GET` in `src/app/api/puzzle/route.ts`. The HTTP,
credential and Google-Sheets plumbing is I/O; the embedded core takes the
already-fetched data rows (projected by the header columns the code looks
up) and the `todayNz` string the code computes with `Intl.DateTimeFormat`
for Pacific/Auckland, and mirrors the pure decision logic. JavaScript
string builtins (`trim`, `toUpperCase`, `<` on strings, `Number` for
canonical decimal numerals) are modelled over character lists.
-/

/-- Models JavaScript `String.prototype.trim`: strip leading and trailing
whitespace. -/
def jsTrim (s : String) : String :=
  ⟨(((s.toList.dropWhile Char.isWhitespace).reverse.dropWhile Char.isWhitespace).reverse)⟩

/-- Models JavaScript `String.prototype.toUpperCase` for the scripts involved. -/
def jsToUpper (s : String) : String :=
  ⟨s.toList.map Char.toUpper⟩

/-- Embeds `normalizeWord` (route.ts lines 153-155):
`String(w ?? "").trim().toUpperCase()`. -/
def normalizeWord (w : String) : String :=
  jsToUpper (jsTrim w)

/-- Embeds `isIsoDate` (route.ts lines 132-134): the regular expression
`^\d{4}-\d{2}-\d{2}$`. -/
def isIsoDate (s : String) : Bool :=
  match s.toList with
  | [a, b, c, d, '-', e, f, '-', g, h] =>
    a.isDigit && b.isDigit && c.isDigit && d.isDigit &&
    e.isDigit && f.isDigit && g.isDigit && h.isDigit
  | _ => false

/-- Lexicographic comparison of character lists by code point, modelling the
JavaScript `<`/`>` comparison on strings (identical on these ASCII dates). -/
def ltChars : List Char → List Char → Bool
  | [], [] => false
  | [], _ :: _ => true
  | _ :: _, [] => false
  | a :: as, b :: bs =>
    if a.toNat < b.toNat then true
    else if b.toNat < a.toNat then false
    else ltChars as bs

/-- Models the JavaScript string comparison `a < b`. -/
def jsLt (a b : String) : Bool :=
  ltChars a.toList b.toList

/-- Parse a nonempty all-digit character list as a natural number. -/
def digitsToNat (l : List Char) : Option Nat :=
  if l ≠ [] ∧ l.all Char.isDigit
  then some (l.foldl (fun n c => n * 10 + (c.toNat - 48)) 0)
  else none

/-- Models `Number(String(row[iLevel] ?? "").trim())` (route.ts line 259)
for canonical decimal numerals; non-numerals (and exotic spellings such as
`"2.0"`, which `Number` also accepts) yield `none` and the row is skipped,
as it is in the source for every value outside `[1, 2, 3, 4]`. -/
def jsLevelNat (s : String) : Option Nat :=
  digitsToNat (jsTrim s).toList

/-- One data row of the spreadsheet, already projected onto the header
columns `date, level, category, word1..word4` the code looks up. -/
structure SheetRow where
  date : String
  level : String
  category : String
  word1 : String
  word2 : String
  word3 : String
  word4 : String
  deriving DecidableEq, Repr

/-- JavaScript `Map.prototype.get` over an insertion-ordered association
list. -/
def mapGet (m : List (String × List Category)) (k : String) : Option (List Category) :=
  (m.find? (fun kv => kv.1 == k)).map (fun kv => kv.2)

/-- JavaScript `Map.prototype.has`. -/
def mapHas (m : List (String × List Category)) (k : String) : Bool :=
  m.any (fun kv => kv.1 == k)

/-- JavaScript `Map.prototype.set`: overwrite in place, or append a new key
(JavaScript maps preserve insertion order of keys). -/
def mapSet (m : List (String × List Category)) (k : String) (v : List Category) :
    List (String × List Category) :=
  if mapHas m k then m.map (fun kv => if kv.1 == k then (k, v) else kv)
  else m ++ [(k, v)]

/-- JavaScript `Map.prototype.keys` as a list. -/
def mapKeys (m : List (String × List Category)) : List String :=
  m.map (fun kv => kv.1)

/-- The `items` const of the row loop (route.ts lines 265-270): the four
normalized words with empty entries dropped. -/
def rowItems (row : SheetRow) : List String :=
  ([normalizeWord row.word1, normalizeWord row.word2,
    normalizeWord row.word3, normalizeWord row.word4]).filter (fun w => w != "")

/-- Embeds one iteration of the row loop of `GET` (route.ts lines 252-282):
skip rows with a malformed date, rows dated after `todayNz`, rows without a
level in 1..4, rows without a category name, rows without 4 nonempty words;
otherwise append the category under the row's date (the source's local
consts `date` and `items` are written out as `jsTrim row.date` and
`rowItems row`). -/
def buildRow (todayNz : String) (m : List (String × List Category)) (row : SheetRow) :
    List (String × List Category) :=
  if !(isIsoDate (jsTrim row.date)) then m
  else if jsLt todayNz (jsTrim row.date) then m
  else
    match jsLevelNat row.level with
    | none => m
    | some levelNum =>
      if !([1, 2, 3, 4].contains levelNum) then m
      else if jsTrim row.category == "" then m
      else if (rowItems row).length != 4 then m
      else mapSet m (jsTrim row.date)
        ((mapGet m (jsTrim row.date)).getD [] ++
          [⟨jsTrim row.category, levelNum, rowItems row⟩])

/-- Embeds the `puzzlesByDate` construction (route.ts lines 250-282). -/
def buildPuzzles (todayNz : String) (rows : List SheetRow) : List (String × List Category) :=
  rows.foldl (buildRow todayNz) []

/-- Insert into a descending-sorted list of date strings. -/
def insertDesc (d : String) : List String → List String
  | [] => [d]
  | x :: xs => if jsLt x d then d :: x :: xs else x :: insertDesc d xs

/-- Embeds `Array.from(puzzlesByDate.keys()).sort((a, b) => b.localeCompare(a))`
(route.ts lines 284-286): the keys sorted descending. -/
def sortDesc (l : List String) : List String :=
  l.foldr insertDesc []

/-- Insert into an ascending-by-level-sorted category list. -/
def insertLevel (c : Category) : List Category → List Category
  | [] => [c]
  | x :: xs => if c.level < x.level then c :: x :: xs else x :: insertLevel c xs

/-- Embeds `categories.sort((a, b) => a.level - b.level)` (route.ts lines
294-296). -/
def sortLevelAsc (l : List Category) : List Category :=
  l.foldr insertLevel []

/-- The success body of `GET` (route.ts lines 336-341). -/
structure PuzzleBody where
  date : String
  todayNz : String
  availableDates : List String
  categories : List Category
  deriving DecidableEq, Repr

/-- Embeds `url.searchParams.get("date")?.trim() || null` (route.ts line
172): the trimmed date parameter, with an empty result collapsed to none. -/
def dateParamTrim (dateParam : Option String) : Option String :=
  match dateParam with
  | none => none
  | some d => if jsTrim d == "" then none else some (jsTrim d)

/-- Embeds `requestedDate = dateParam ?? todayNz` (route.ts line 174). -/
def requestedDateOf (todayNz : String) (dateParam : Option String) : String :=
  (dateParamTrim dateParam).getD todayNz

/-- Embeds `availableDates` (route.ts lines 284-286). -/
def availableDatesOf (todayNz : String) (rows : List SheetRow) : List String :=
  sortDesc (mapKeys (buildPuzzles todayNz rows))

/-- Embeds `dateToUse` with its fallback to the latest available date
(route.ts lines 288-292). -/
def dateToUseOf (todayNz : String) (dateParam : Option String) (rows : List SheetRow) :
    String :=
  if (dateParamTrim dateParam).isNone &&
      !(mapHas (buildPuzzles todayNz rows) (requestedDateOf todayNz dateParam)) &&
      !((availableDatesOf todayNz rows).isEmpty)
  then (availableDatesOf todayNz rows).headD (requestedDateOf todayNz dateParam)
  else requestedDateOf todayNz dateParam

/-- Embeds `categories` (route.ts lines 294-296): the entry for `dateToUse`
sorted ascending by level. -/
def categoriesOf (todayNz : String) (dateParam : Option String) (rows : List SheetRow) :
    List Category :=
  sortLevelAsc ((mapGet (buildPuzzles todayNz rows) (dateToUseOf todayNz dateParam rows)).getD [])

/-- Embeds the decision core of `GET` (route.ts lines 157-354), with the
spreadsheet fetch replaced by the `rows` argument (the `values.length < 2`
emptiness check becomes emptiness of the data rows) and each error response
represented by its message; the source's local consts are the named
definitions above. -/
def getPuzzleCore (todayNz : String) (dateParam : Option String) (rows : List SheetRow) :
    Except String PuzzleBody :=
  if !(isIsoDate (requestedDateOf todayNz dateParam)) then
    .error "Invalid date format. Use YYYY-MM-DD."
  else if jsLt todayNz (requestedDateOf todayNz dateParam) then
    .error "That puzzle date is not available yet."
  else if rows.length < 1 then
    .error "Sheet appears empty (need header + rows)."
  else if (categoriesOf todayNz dateParam rows).length != 4 then
    .error "Puzzle is missing or incomplete (need 4 rows: levels 1-4)."
  else if ((categoriesOf todayNz dateParam rows).map (fun c => c.level)).eraseDups.length != 4 then
    .error "Puzzle must contain exactly one row per level (1-4)."
  else if (((categoriesOf todayNz dateParam rows).map (fun c => c.items)).flatten).eraseDups.length != 16 then
    .error "Puzzle must contain 16 unique words (no duplicates)."
  else .ok ⟨dateToUseOf todayNz dateParam rows, todayNz,
    availableDatesOf todayNz rows, categoriesOf todayNz dateParam rows⟩

/-- Concrete spreadsheet rows: a complete puzzle for 2026-10-10 plus one row
dated in the future, used to instantiate the provider theorem. -/
def demoRows : List SheetRow :=
  [⟨"2026-10-10", "1", "FRUIT", "apple", "pear", "plum", "kiwi"⟩,
   ⟨"2026-10-10", "2", "COLOR", "red", "blue", "green", "gold"⟩,
   ⟨"2026-10-10", "3", "METAL", "iron", "steel", "tin", "lead"⟩,
   ⟨"2026-10-10", "4", "TOOL", "saw", "axe", "hammer", "drill"⟩,
   ⟨"2027-01-01", "1", "FUTURE", "aa", "bb", "cc", "dd"⟩]

theorem init_le_foldl_max {l : List Nat} {a : Nat} : a ≤ l.foldl max a := by
  induction l generalizing a with
  | nil => exact le_refl a
  | cons x xs ih => exact le_trans (le_max_left a x) ih

theorem le_foldl_max {l : List Nat} {a b : Nat} (h : b ∈ l) : b ≤ l.foldl max a := by
  induction l generalizing a with
  | nil => cases h
  | cons x xs ih =>
    rcases List.mem_cons.mp h with rfl | h2
    · exact le_trans (le_max_right a b) init_le_foldl_max
    · exact ih h2

theorem foldl_max_le {l : List Nat} {a c : Nat} (ha : a ≤ c) (h : ∀ b ∈ l, b ≤ c) :
    l.foldl max a ≤ c := by
  induction l generalizing a with
  | nil => exact ha
  | cons x xs ih =>
    exact ih (max_le ha (h x (by simp))) (fun b hb => h b (List.mem_cons_of_mem _ hb))

theorem foldl_max_eq_init_or_mem {l : List Nat} {a : Nat} :
    l.foldl max a = a ∨ l.foldl max a ∈ l := by
  induction l generalizing a with
  | nil => exact Or.inl rfl
  | cons x xs ih =>
    rcases ih (a := max a x) with h | h
    · rcases max_choice a x with hm | hm
      · exact Or.inl (by rw [List.foldl_cons, h, hm])
      · exact Or.inr (by rw [List.foldl_cons, h, hm]; exact List.mem_cons_self x xs)
    · exact Or.inr (List.mem_cons_of_mem _ h)

theorem countP_or_disjoint {α : Type} {l : List α} {p q : α → Bool}
    (h : ∀ x ∈ l, ¬(p x = true ∧ q x = true)) :
    l.countP (fun x => p x || q x) = l.countP p + l.countP q := by
  induction l with
  | nil => simp
  | cons x xs ih =>
    have hx := h x (List.mem_cons_self x xs)
    have ih2 := ih (fun y hy => h y (List.mem_cons_of_mem _ hy))
    by_cases hp : p x = true
    · by_cases hq : q x = true
      · exact absurd ⟨hp, hq⟩ hx
      · simp [List.countP_cons, hp, hq, ih2]; omega
    · by_cases hq : q x = true
      · simp [List.countP_cons, hp, hq, ih2]; omega
      · simp [List.countP_cons, hp, hq, ih2]

theorem countP_le_add {α : Type} {l : List α} {p q r : α → Bool}
    (h : ∀ x ∈ l, q x = true → p x = true ∨ r x = true) :
    l.countP q ≤ l.countP p + l.countP r := by
  induction l with
  | nil => simp
  | cons x xs ih =>
    have ih2 := ih (fun y hy => h y (List.mem_cons_of_mem _ hy))
    by_cases hq : q x = true
    · rcases h x (List.mem_cons_self x xs) hq with hp | hr
      · simp only [List.countP_cons, hq, hp, if_true]
        by_cases hr : r x = true <;> simp [hr] <;> omega
      · simp only [List.countP_cons, hq, hr, if_true]
        by_cases hp : p x = true <;> simp [hp] <;> omega
    · simp only [List.countP_cons, hq, if_false]
      by_cases hp : p x = true <;> by_cases hr : r x = true <;> simp [hp, hr] <;> omega

theorem countP_mono_of_imp {α : Type} {l : List α} {p q : α → Bool}
    (h : ∀ x ∈ l, p x = true → q x = true) : l.countP p ≤ l.countP q := by
  induction l with
  | nil => simp
  | cons x xs ih =>
    have ih2 := ih (fun y hy => h y (List.mem_cons_of_mem _ hy))
    by_cases hp : p x = true
    · simp [List.countP_cons, hp, h x (List.mem_cons_self x xs) hp]; omega
    · simp only [List.countP_cons, hp]
      by_cases hq : q x = true <;> simp [hq] <;> omega

theorem flatten_sublist_of_sublist {α : Type} {L M : List (List α)} (h : L.Sublist M) :
    L.flatten.Sublist M.flatten := by
  induction h with
  | slnil => exact List.Sublist.refl _
  | cons a _ ih =>
    refine ih.trans ?_
    rw [List.flatten_cons]
    exact List.sublist_append_right a _
  | cons₂ a _ ih =>
    rw [List.flatten_cons, List.flatten_cons]
    exact ih.append_left a

theorem category_contains_iff {l : List Category} {c : Category} :
    l.contains c = true ↔ c ∈ l := List.elem_iff

theorem word_contains_iff {l : List Word} {w : Word} :
    l.contains w = true ↔ w ∈ l := List.elem_iff

theorem string_contains_iff {l : List String} {t : String} :
    l.contains t = true ↔ t ∈ l := List.elem_iff

theorem disjoint_items_of_nodup_flatten {p : List Category}
    (hfl : ((p.map (fun c => c.items)).flatten).Nodup) (hp : p.Nodup)
    {c d : Category} (hc : c ∈ p) (hd : d ∈ p) (hne : c ≠ d)
    {x : String} (hxc : x ∈ c.items) : x ∉ d.items := by
  induction p with
  | nil => cases hc
  | cons a t ih =>
    rw [List.map_cons, List.flatten_cons] at hfl
    have hdisj := List.disjoint_of_nodup_append hfl
    have hmem : ∀ e ∈ t, ∀ y ∈ e.items, y ∈ ((t.map (fun c => c.items)).flatten) := by
      intro e he y hy
      exact List.mem_flatten.mpr ⟨e.items, List.mem_map_of_mem _ he, hy⟩
    rcases List.mem_cons.mp hc with rfl | hct
    · rcases List.mem_cons.mp hd with rfl | hdt
      · exact absurd rfl hne
      · intro hxd
        exact hdisj hxc (hmem d hdt x hxd)
    · rcases List.mem_cons.mp hd with rfl | hdt
      · intro hxd
        exact hdisj hxd (hmem c hct x hxc)
      · exact ih (List.Nodup.of_append_right hfl) (List.Nodup.of_cons hp) hct hdt
  -- the recursive case needs the full argument list

theorem filter_erase_eq {p : List Category} (hp : p.Nodup) {c : Category} {q : Category → Bool}
    (hc : c ∈ p.filter q) :
    (p.filter q).erase c = p.filter (fun d => q d && !(d == c)) := by
  induction p with
  | nil => cases hc
  | cons a t ih =>
    have hant : a ∉ t := (List.nodup_cons.mp hp).1
    have hpt : t.Nodup := (List.nodup_cons.mp hp).2
    by_cases hqa : q a = true
    · rw [List.filter_cons_of_pos hqa] at hc ⊢
      by_cases hac : a = c
      · subst hac
        rw [List.erase_cons_head]
        have hcong : ∀ d ∈ t, q d = (q d && !(d == a)) := by
          intro d hd
          have hda : d ≠ a := fun h => hant (h ▸ hd)
          simp [hda]
        rw [List.filter_cons_of_neg (by simp)]
        exact List.filter_congr hcong
      · have hca : ¬(a == c) = true := by simp [hac]
        rw [List.erase_cons_tail (by simp [hac])]
        rw [List.filter_cons_of_pos (by simp [hqa, hac])]
        have hct : c ∈ t.filter q := by
          rcases List.mem_cons.mp hc with h | h
          · exact absurd h.symm hac
          · exact h
        rw [ih hpt hct]
    · rw [List.filter_cons_of_neg hqa] at hc
      rw [List.filter_cons_of_neg hqa, List.filter_cons_of_neg (by simp [hqa])]
      exact ih hpt hc

theorem length_filter_split {α : Type} (l : List α) (q : α → Bool) :
    l.length = (l.filter q).length + (l.filter (fun x => !(q x))).length := by
  induction l with
  | nil => rfl
  | cons x xs ih =>
    by_cases h : q x = true <;> simp [h, ih] <;> omega

theorem length_filter_not_contains {p cl : List Category} (hp : p.Nodup) (hcl : cl.Nodup)
    (hsub : ∀ c ∈ cl, c ∈ p) :
    (p.filter (fun c => !(cl.contains c))).length + cl.length = p.length := by
  induction cl with
  | nil => simp
  | cons d t ih =>
    have hdt : d ∉ t := (List.nodup_cons.mp hcl).1
    have htn : t.Nodup := (List.nodup_cons.mp hcl).2
    have hd : d ∈ p := hsub d (List.mem_cons_self d t)
    have hstep : (p.filter (fun c => !(t.contains c))).length =
        (p.filter (fun c => !((d :: t).contains c))).length + 1 := by
      have hperm := length_filter_split (p.filter (fun c => !(t.contains c)))
        (fun c => (c == d))
      have heq1 : (p.filter (fun c => !(t.contains c))).filter (fun c => !(c == d)) =
          p.filter (fun c => !((d :: t).contains c)) := by
        rw [List.filter_filter]
        apply List.filter_congr
        intro c _
        simp only [List.contains_cons]
        cases hcd : c == d <;> cases hct : t.contains c <;> simp [hcd, hct]
      have heq2 : (p.filter (fun c => !(t.contains c))).filter (fun c => (c == d)) = [d] := by
        rw [List.filter_filter]
        have hcong : ∀ c ∈ p, ((c == d) && !(t.contains c)) = (c == d) := by
          intro c _
          cases hcd : c == d
          · simp
          · have hcde : c = d := by simpa using hcd
            subst hcde
            simp [hdt]
        rw [List.filter_congr hcong]
        have h1 : p.filter (fun c => (c == d)) = List.replicate (p.count d) d := by
          simpa using List.filter_beq p d
        rw [h1, List.count_eq_one_of_mem hp hd]
        rfl
      rw [heq1, heq2] at hperm
      simp only [List.length_cons, List.length_nil] at hperm
      omega
    have ihh := ih htn (fun c hc => hsub c (List.mem_cons_of_mem _ hc))
    simp only [List.length_cons]
    omega

theorem boardTexts_selectWord (w : Word) (s : GameState) :
    boardTexts (selectWord w s) = boardTexts s := by
  simp only [boardTexts, selectWord, List.map_map]
  apply List.map_congr_left
  intro item _
  by_cases h : w.word = item.word <;> simp [h]

theorem boardTexts_deselectAll (s : GameState) :
    boardTexts (deselectAllWords s) = boardTexts s := by
  simp only [boardTexts, deselectAllWords, List.map_map]
  rfl

theorem selectedWords_deselectAll (s : GameState) :
    selectedWords (deselectAllWords s) = [] := by
  simp only [selectedWords, deselectAllWords]
  induction s.gameWords with
  | nil => rfl
  | cons x xs ih => simpa using ih

theorem selectWord_fields (w : Word) (s : GameState) :
    (selectWord w s).puzzleCategories = s.puzzleCategories ∧
    (selectWord w s).clearedCategories = s.clearedCategories ∧
    (selectWord w s).isWon = s.isWon ∧
    (selectWord w s).isLost = s.isLost ∧
    (selectWord w s).mistakesRemaining = s.mistakesRemaining ∧
    (selectWord w s).guessHistory = s.guessHistory := by
  simp [selectWord]

theorem deselectAll_fields (s : GameState) :
    (deselectAllWords s).puzzleCategories = s.puzzleCategories ∧
    (deselectAllWords s).clearedCategories = s.clearedCategories ∧
    (deselectAllWords s).isWon = s.isWon ∧
    (deselectAllWords s).isLost = s.isLost ∧
    (deselectAllWords s).mistakesRemaining = s.mistakesRemaining ∧
    (deselectAllWords s).guessHistory = s.guessHistory := by
  simp [deselectAllWords]

theorem selectedWords_length_countP (s : GameState) :
    (selectedWords s).length = s.gameWords.countP (fun w => w.selected) := by
  simp [selectedWords, List.countP_eq_length_filter]

theorem map_word_filter (l : List Word) (its : List String) :
    (l.filter (fun it => !(its.contains it.word))).map (fun w => w.word) =
    (l.map (fun w => w.word)).filter (fun t => !(its.contains t)) := by
  induction l with
  | nil => rfl
  | cons x xs ih =>
    rw [List.map_cons, List.filter_cons, List.filter_cons]
    by_cases h : (!(its.contains x.word)) = true
    · rw [if_pos h, if_pos h, List.map_cons, ih]
    · rw [if_neg h, if_neg h, ih]

theorem nodup_flatten_uncleared {p : List Category} (hv : ValidPuzzle p)
    (cl : List Category) :
    (((p.filter (fun c => !(cl.contains c))).map (fun c => c.items)).flatten).Nodup := by
  refine List.Nodup.sublist ?_ hv.2.2
  exact flatten_sublist_of_sublist ((List.filter_sublist p).map _)

theorem nodup_boardTexts {p : List Category} {s : GameState} (hv : ValidPuzzle p)
    (hco : Coherent p s) : (boardTexts s).Nodup := by
  exact (nodup_flatten_uncleared hv s.clearedCategories).perm hco.symm

theorem nodup_puzzle {p : List Category} (hv : ValidPuzzle p) : p.Nodup := by
  have h1 : (p.map (fun c => c.level)).Nodup := by
    rw [hv.1]; decide
  exact h1.of_map

theorem countP_matched_le_one {l : List Word} {t : String}
    (hnd : (l.map (fun w => w.word)).Nodup) :
    l.countP (fun it => t == it.word) ≤ 1 := by
  have h1 : l.countP (fun it => t == it.word) = l.countP (fun it => it.word == t) := by
    apply List.countP_congr
    intro it _
    cases h : it.word == t
    · have hne : ¬(it.word = t) := by simpa using h
      have hne2 : ¬(t = it.word) := fun he => hne he.symm
      simp [hne, hne2]
    · have heq : it.word = t := by simpa using h
      simp [heq]
  have h2 : l.countP (fun it => it.word == t) = (l.map (fun w => w.word)).count t := by
    rw [List.count, List.countP_map]
    rfl
  rw [h1, h2]
  exact List.nodup_iff_count_le_one.mp hnd t

theorem selectedWords_selectWord_le (w : Word) (s : GameState)
    (hnd : (boardTexts s).Nodup) (h4 : (selectedWords s).length ≤ 4) :
    (selectedWords (selectWord w s)).length ≤ 4 := by
  rw [selectedWords_length_countP] at h4 ⊢
  show ((selectWord w s).gameWords.countP (fun w => w.selected)) ≤ 4
  have hmap : (selectWord w s).gameWords = s.gameWords.map (fun item =>
      if w.word == item.word then
        { item with
          ref := s.fresh
          selected := if (selectedWords s).length < 4 then !item.selected else false }
      else item) := rfl
  rw [hmap, List.countP_map]
  by_cases hlt : (selectedWords s).length < 4
  · have hle : s.gameWords.countP
        ((fun w => w.selected) ∘ (fun item =>
          if w.word == item.word then
            { item with
              ref := s.fresh
              selected := if (selectedWords s).length < 4 then !item.selected else false }
          else item)) ≤
        s.gameWords.countP (fun it => it.selected) +
        s.gameWords.countP (fun it => w.word == it.word) := by
      apply countP_le_add
      intro x _ hq
      by_cases hm : (w.word == x.word) = true
      · exact Or.inr hm
      · refine Or.inl ?_
        simpa [Function.comp, hm] using hq
    have hone : s.gameWords.countP (fun it => w.word == it.word) ≤ 1 :=
      countP_matched_le_one hnd
    have hsel : s.gameWords.countP (fun it => it.selected) ≤ 3 := by
      rw [selectedWords_length_countP] at hlt
      omega
    omega
  · have hle : s.gameWords.countP
        ((fun w => w.selected) ∘ (fun item =>
          if w.word == item.word then
            { item with
              ref := s.fresh
              selected := if (selectedWords s).length < 4 then !item.selected else false }
          else item)) ≤
        s.gameWords.countP (fun it => it.selected) := by
      apply countP_mono_of_imp
      intro x _ hq
      by_cases hm : (w.word == x.word) = true
      · simp [Function.comp, hm, hlt] at hq
      · simpa [Function.comp, hm] using hq
    omega

theorem foldl_revealStep_fields (l : List Category) (st : GameState) :
    (l.foldl revealStep st).clearedCategories = st.clearedCategories ++ l ∧
    (l.foldl revealStep st).puzzleCategories = st.puzzleCategories ∧
    (l.foldl revealStep st).isWon = st.isWon ∧
    (l.foldl revealStep st).isLost = st.isLost ∧
    (l.foldl revealStep st).mistakesRemaining = st.mistakesRemaining ∧
    (l.foldl revealStep st).guessHistory = st.guessHistory ∧
    (l.foldl revealStep st).fresh = st.fresh := by
  induction l generalizing st with
  | nil => simp
  | cons c t ih =>
    rw [List.foldl_cons]
    have h := ih (revealStep st c)
    refine ⟨?_, h.2.1, h.2.2.1, h.2.2.2.1, h.2.2.2.2.1, h.2.2.2.2.2.1, h.2.2.2.2.2.2⟩
    rw [h.1]
    show (st.clearedCategories ++ [c]) ++ t = st.clearedCategories ++ c :: t
    simp

theorem boardTexts_revealStep (st : GameState) (c : Category) :
    boardTexts (revealStep st c) = (boardTexts st).filter (fun t => !(c.items.contains t)) := by
  simp only [boardTexts, revealStep]
  exact map_word_filter st.gameWords c.items

theorem foldl_revealStep_empties (l : List Category) (st : GameState)
    (hperm : (boardTexts st).Perm ((l.map (fun c => c.items)).flatten))
    (hnd : ((l.map (fun c => c.items)).flatten).Nodup) :
    (l.foldl revealStep st).gameWords = [] := by
  induction l generalizing st with
  | nil =>
    simp only [List.foldl_nil]
    have : boardTexts st = [] := hperm.eq_nil
    simpa [boardTexts, List.map_eq_nil_iff] using this
  | cons c t ih =>
    rw [List.map_cons, List.flatten_cons] at hperm hnd
    have hdisj := List.disjoint_of_nodup_append hnd
    rw [List.foldl_cons]
    apply ih
    · rw [boardTexts_revealStep]
      refine (hperm.filter _).trans ?_
      rw [List.filter_append]
      have h1 : c.items.filter (fun t => !(c.items.contains t)) = [] := by
        apply List.filter_eq_nil_iff.mpr
        intro t ht
        simp [ht]
      have h2 : ((t.map (fun c => c.items)).flatten).filter
          (fun x => !(c.items.contains x)) = (t.map (fun c => c.items)).flatten := by
        apply List.filter_eq_self.mpr
        intro x hx
        have hni : x ∉ c.items := fun hxc => hdisj hxc hx
        simp [hni]
      rw [h1, h2, List.nil_append]
    · exact List.Nodup.of_append_right hnd

theorem handleLoss_core {p : List Category} {s : GameState} (hv : ValidPuzzle p)
    (hpz : s.puzzleCategories = some p) (hco : Coherent p s) :
    (handleLoss s).gameWords = [] ∧
    (handleLoss s).clearedCategories = s.clearedCategories ++ unclearedCats p s ∧
    (handleLoss s).isLost = true ∧
    (handleLoss s).isWon = s.isWon ∧
    (handleLoss s).puzzleCategories = some p ∧
    (handleLoss s).mistakesRemaining = s.mistakesRemaining ∧
    (handleLoss s).guessHistory = s.guessHistory := by
  have hdef : handleLoss s =
      { (unclearedCats p s).foldl revealStep (deselectAllWords s) with isLost := true } := by
    unfold handleLoss
    rw [hpz]
    rfl
  have hfold := foldl_revealStep_fields (unclearedCats p s) (deselectAllWords s)
  have hempty : ((unclearedCats p s).foldl revealStep (deselectAllWords s)).gameWords = [] := by
    apply foldl_revealStep_empties
    · rw [boardTexts_deselectAll]
      exact hco
    · exact nodup_flatten_uncleared hv s.clearedCategories
  refine ⟨?_, ?_, ?_, ?_, ?_, ?_, ?_⟩ <;>
    simp [hdef, hempty, hfold.1, hfold.2.1, hfold.2.2.1, hfold.2.2.2.1, hfold.2.2.2.2.1,
      hfold.2.2.2.2.2.1, deselectAll_fields, hpz]

theorem likeness_full {c : Category} {sel : List Word}
    (h : ∀ w ∈ sel, w.word ∈ c.items) :
    (sel.filter (fun item => c.items.contains item.word)).length = sel.length := by
  rw [List.filter_eq_self.mpr]
  intro w hw
  simp [h w hw]

theorem likeness_zero {d : Category} {sel : List Word}
    (h : ∀ w ∈ sel, w.word ∉ d.items) :
    (sel.filter (fun item => d.items.contains item.word)).length = 0 := by
  rw [List.length_eq_zero]
  apply List.filter_eq_nil_iff.mpr
  intro w hw
  simp [h w hw]

theorem getD_indexOf_unique {p : List Category} {f : Category → Nat} {c : Category}
    (hc : c ∈ p) (hfc : f c = 4) (hothers : ∀ d ∈ p, d ≠ c → f d ≠ 4) :
    p.getD ((p.map f).indexOf 4) ⟨"", 0, []⟩ = c := by
  induction p with
  | nil => cases hc
  | cons a t ih =>
    by_cases hac : a = c
    · subst hac
      have : f a = 4 := hfc
      simp [List.indexOf_cons, this]
    · have hfa : f a ≠ 4 := hothers a (List.mem_cons_self a t) hac
      have hct : c ∈ t := by
        rcases List.mem_cons.mp hc with h | h
        · exact absurd h.symm hac
        · exact h
      have hne : ((f a : Nat) == 4) = false := by
        simpa using hfa
      rw [List.map_cons, List.indexOf_cons, hne]
      simpa using ih hct (fun d hd hdc => hothers d (List.mem_cons_of_mem _ hd) hdc)

theorem nodup_selectedTexts {p : List Category} {s : GameState} (hv : ValidPuzzle p)
    (hco : Coherent p s) : ((selectedWords s).map (fun w => w.word)).Nodup :=
  (nodup_boardTexts hv hco).sublist ((List.filter_sublist _).map _)

theorem puzzle_length_four {p : List Category} (hv : ValidPuzzle p) : p.length = 4 := by
  have := congrArg List.length hv.1
  simpa using this

theorem likeness_identify {p : List Category} (hv : ValidPuzzle p) {sel : List Word}
    (hlen : sel.length = 4) (hndsel : (sel.map (fun w => w.word)).Nodup)
    {c : Category} (hc : c ∈ p)
    (hsub : ∀ w ∈ sel, w.word ∈ c.items) :
    maxLikeness p sel = 4 ∧
    p.getD (maxLikenessIdx p sel) ⟨"", 0, []⟩ = c ∧
    ((sel.map (fun w => w.word)).Perm c.items) := by
  have hzero : ∀ d ∈ p, d ≠ c →
      (sel.filter (fun item => d.items.contains item.word)).length = 0 := by
    intro d hd hdc
    apply likeness_zero
    intro w hw
    exact disjoint_items_of_nodup_flatten hv.2.2 (nodup_puzzle hv) hc hd
      (fun h => hdc h.symm) (hsub w hw)
  have hfull : (sel.filter (fun item => c.items.contains item.word)).length = 4 := by
    rw [likeness_full hsub, hlen]
  have hml : maxLikeness p sel = 4 := by
    unfold maxLikeness likenessCounts
    apply le_antisymm
    · apply foldl_max_le (by omega)
      intro b hb
      rcases List.mem_map.mp hb with ⟨d, _, rfl⟩
      calc (sel.filter (fun item => d.items.contains item.word)).length
          ≤ sel.length := List.length_filter_le _ _
        _ = 4 := hlen
    · apply le_foldl_max
      rw [← hfull]
      exact List.mem_map_of_mem _ hc
  refine ⟨hml, ?_, ?_⟩
  · unfold maxLikenessIdx
    rw [hml]
    unfold likenessCounts
    apply getD_indexOf_unique hc hfull
    intro d hd hdc
    rw [hzero d hd hdc]
    omega
  · have hsubl : (sel.map (fun w => w.word)) ⊆ c.items := by
      intro x hx
      rcases List.mem_map.mp hx with ⟨w, hw, rfl⟩
      exact hsub w hw
    have hsp : (sel.map (fun w => w.word)).Subperm c.items := hndsel.subperm hsubl
    apply hsp.perm_of_length_le
    rw [List.length_map, hlen]
    exact le_of_eq (hv.2.1 c hc)

theorem matched_not_cleared {p : List Category} {s : GameState} (hv : ValidPuzzle p)
    (hco : Coherent p s) {c : Category} (hc : c ∈ p)
    (hsel : ∃ w ∈ selectedWords s, w.word ∈ c.items) :
    c ∉ s.clearedCategories := by
  intro hcl
  rcases hsel with ⟨w, hw, hwc⟩
  have hwb : w ∈ s.gameWords := (List.mem_filter.mp hw).1
  have hwt : w.word ∈ boardTexts s := List.mem_map_of_mem _ hwb
  have hwf : w.word ∈ ((unclearedCats p s).map (fun c => c.items)).flatten :=
    hco.subset hwt
  rcases List.mem_flatten.mp hwf with ⟨l, hl, hwl⟩
  rcases List.mem_map.mp hl with ⟨d, hd, rfl⟩
  have hdp : d ∈ p := (List.mem_filter.mp hd).1
  have hdnc : d ∉ s.clearedCategories := by
    have := (List.mem_filter.mp hd).2
    simpa using this
  have hdc : d ≠ c := fun h => hdnc (h ▸ hcl)
  exact disjoint_items_of_nodup_flatten hv.2.2 (nodup_puzzle hv) hdp hc hdc hwl hwc

theorem correct_effect {p : List Category} {t : GameState} (hv : ValidPuzzle p)
    (hco : Coherent p t) (hclp : ∀ d ∈ t.clearedCategories, d ∈ p)
    (hnd : t.clearedCategories.Nodup) {c : Category} (hc : c ∈ p)
    (hnc : c ∉ t.clearedCategories) :
    ∀ r u, getCorrectResult c t = (r, u) →
      u.clearedCategories = t.clearedCategories ++ [c] ∧
      Coherent p u ∧
      (∀ d ∈ u.clearedCategories, d ∈ p) ∧
      u.clearedCategories.Nodup ∧
      u.gameWords.length + 4 = t.gameWords.length ∧
      u.puzzleCategories = t.puzzleCategories ∧
      u.isWon = t.isWon ∧ u.isLost = t.isLost ∧
      u.mistakesRemaining = t.mistakesRemaining ∧
      u.guessHistory = t.guessHistory ∧
      (selectedWords u).length ≤ (selectedWords t).length ∧
      (r = .win ↔ t.clearedCategories.length = 3) ∧
      (r = .win → u.gameWords = []) ∧
      (r = .correct → u.gameWords ≠ []) ∧
      (r = .win ∨ r = .correct) := by
  intro r u heq
  have hcu : c ∈ unclearedCats p t := by
    unfold unclearedCats
    exact List.mem_filter.mpr ⟨hc, by simp [hnc]⟩
  -- extract the matched block from the uncleared flatten
  have hUperm : (unclearedCats p t).Perm (c :: (unclearedCats p t).erase c) :=
    List.perm_cons_erase hcu
  have hbig : (((unclearedCats p t).map (fun d => d.items)).flatten).Perm
      (c.items ++ (((unclearedCats p t).erase c).map (fun d => d.items)).flatten) := by
    have h1 := (hUperm.map (fun d => d.items)).join
    simpa using h1
  have hndU : (c.items ++ (((unclearedCats p t).erase c).map (fun d => d.items)).flatten).Nodup :=
    (nodup_flatten_uncleared hv t.clearedCategories).perm hbig
  have hdisj := List.disjoint_of_nodup_append hndU
  -- the state written by getCorrectResult
  have hstate : u = { t with
      clearedCategories := t.clearedCategories ++ [c]
      gameWords := t.gameWords.filter (fun item => !(c.items.contains item.word)) } ∧
      (r = .win ↔ t.clearedCategories.length = 3) ∧ (r = .win ∨ r = .correct) := by
    unfold getCorrectResult at heq
    by_cases h3 : t.clearedCategories.length = 3
    · rw [if_pos (by simpa using h3)] at heq
      obtain ⟨hr, hu2⟩ := (Prod.mk.injEq _ _ _ _).mp heq
      exact ⟨hu2.symm, by rw [← hr]; simp [h3], Or.inl hr.symm⟩
    · rw [if_neg (by simpa using h3)] at heq
      obtain ⟨hr, hu2⟩ := (Prod.mk.injEq _ _ _ _).mp heq
      refine ⟨hu2.symm, ?_, Or.inr hr.symm⟩
      rw [← hr]
      simp [h3]
  obtain ⟨hu, hwin3, hwc⟩ := hstate
  -- the uncleared categories after appending c
  have hstep1 : unclearedCats p u = (unclearedCats p t).erase c := by
    have hcu2 : c ∈ p.filter (fun d => !(t.clearedCategories.contains d)) := hcu
    unfold unclearedCats
    rw [filter_erase_eq (nodup_puzzle hv) hcu2]
    apply List.filter_congr
    intro d _
    rw [hu]
    show (!((t.clearedCategories ++ [c]).contains d)) =
      (!(t.clearedCategories.contains d) && !(d == c))
    by_cases h1 : d ∈ t.clearedCategories <;> by_cases h2 : d = c <;> simp [h1, h2]
  -- the board texts after the filter
  have htexts : boardTexts u = (boardTexts t).filter (fun x => !(c.items.contains x)) := by
    rw [hu]
    exact map_word_filter t.gameWords c.items
  have hfiltR : ((c.items ++ (((unclearedCats p t).erase c).map (fun d => d.items)).flatten).filter
      (fun x => !(c.items.contains x))) =
      (((unclearedCats p t).erase c).map (fun d => d.items)).flatten := by
    rw [List.filter_append]
    have h1 : c.items.filter (fun x => !(c.items.contains x)) = [] := by
      apply List.filter_eq_nil_iff.mpr
      intro x hx
      simp [hx]
    have h2 : ((((unclearedCats p t).erase c).map (fun d => d.items)).flatten).filter
        (fun x => !(c.items.contains x)) =
        (((unclearedCats p t).erase c).map (fun d => d.items)).flatten := by
      apply List.filter_eq_self.mpr
      intro x hx
      have hni : x ∉ c.items := fun hxc => hdisj hxc hx
      simp [hni]
    rw [h1, h2, List.nil_append]
  have hpermU : (boardTexts u).Perm
      ((((unclearedCats p t).erase c).map (fun d => d.items)).flatten) := by
    rw [htexts, ← hfiltR]
    exact (hco.trans hbig).filter _
  have hcoU : Coherent p u := by
    unfold Coherent
    rw [hstep1]
    exact hpermU
  -- lengths
  have hlen4 : c.items.length = 4 := hv.2.1 c hc
  have hlenR : (boardTexts u).length + 4 = (boardTexts t).length := by
    have h1 : (boardTexts t).length =
        (c.items ++ (((unclearedCats p t).erase c).map (fun d => d.items)).flatten).length :=
      (hco.trans hbig).length_eq
    have h2 : (boardTexts u).length =
        ((((unclearedCats p t).erase c).map (fun d => d.items)).flatten).length :=
      hpermU.length_eq
    rw [h1, h2, List.length_append, hlen4]
    omega
  have hlenB : u.gameWords.length + 4 = t.gameWords.length := by
    have e1 : (boardTexts u).length = u.gameWords.length := List.length_map _ _
    have e2 : (boardTexts t).length = t.gameWords.length := List.length_map _ _
    omega
  refine ⟨by rw [hu], hcoU, ?_, ?_, hlenB, by rw [hu], by rw [hu], by rw [hu], by rw [hu],
    by rw [hu], ?_, hwin3, ?_, ?_, hwc⟩
  · intro d hd
    rw [hu] at hd
    rcases List.mem_append.mp hd with h | h
    · exact hclp d h
    · rcases List.mem_cons.mp h with rfl | h2
      · exact hc
      · cases h2
  · rw [hu]
    exact hnd.append (List.nodup_singleton c) (by simpa using hnc)
  · rw [hu]
    have hsub : ((t.gameWords.filter (fun item => !(c.items.contains item.word))).filter
        (fun w => w.selected)).Sublist (t.gameWords.filter (fun w => w.selected)) :=
      (List.filter_sublist _).filter _
    exact hsub.length_le
  · intro hr
    have h3 := hwin3.mp hr
    have hcount := length_filter_not_contains (nodup_puzzle hv) hnd hclp
    have hp4 := puzzle_length_four hv
    have hU1 : (unclearedCats p t).length = 1 := by
      unfold unclearedCats
      omega
    rcases List.length_eq_one.mp hU1 with ⟨a, ha⟩
    have hca : c = a := by
      have := hcu
      rw [ha] at this
      simpa using this
    have hRnil : (unclearedCats p t).erase c = [] := by
      rw [ha, hca, List.erase_cons_head]
    have : boardTexts u = [] := by
      have h2 := hpermU
      rw [hRnil] at h2
      simpa using h2.eq_nil
    rw [hu] at this ⊢
    simpa [boardTexts, List.map_eq_nil_iff] using this
  · intro hr
    have h3 : t.clearedCategories.length ≠ 3 := by
      intro h
      have hcontra := hwin3.mpr h
      rw [hr] at hcontra
      cases hcontra
    have hclen : t.clearedCategories.length ≤ 3 := by
      have hnod : (t.clearedCategories ++ [c]).Nodup :=
        hnd.append (List.nodup_singleton c) (by simpa using hnc)
      have hsub2 : (t.clearedCategories ++ [c]) ⊆ p := by
        intro d hd
        rcases List.mem_append.mp hd with h | h
        · exact hclp d h
        · rcases List.mem_cons.mp h with rfl | h2
          · exact hc
          · cases h2
      have := (hnod.subperm hsub2).length_le
      rw [List.length_append] at this
      have hp4 := puzzle_length_four hv
      simp at this
      omega
    have hcount := length_filter_not_contains (nodup_puzzle hv) hnd hclp
    have hp4 := puzzle_length_four hv
    have hU2 : 2 ≤ (unclearedCats p t).length := by
      unfold unclearedCats
      omega
    have hE1 : 1 ≤ ((unclearedCats p t).erase c).length := by
      rw [List.length_erase_of_mem hcu]
      omega
    have hEne : (unclearedCats p t).erase c ≠ [] := by
      intro h
      rw [h] at hE1
      simp at hE1
    rcases List.exists_mem_of_ne_nil _ hEne with ⟨d, hd⟩
    have hdp : d ∈ p := by
      have hdu : d ∈ unclearedCats p t := (List.erase_sublist _ _).subset hd
      exact (List.mem_filter.mp hdu).1
    have hdlen : d.items.length = 4 := hv.2.1 d hdp
    have hdne : d.items ≠ [] := by
      intro h
      rw [h] at hdlen
      cases hdlen
    rcases List.exists_mem_of_ne_nil _ hdne with ⟨x, hx⟩
    have hxR : x ∈ (((unclearedCats p t).erase c).map (fun e => e.items)).flatten :=
      List.mem_flatten.mpr ⟨d.items, List.mem_map_of_mem _ hd, hx⟩
    have hxB : x ∈ boardTexts u := hpermU.mem_iff.mpr hxR
    intro hnil
    have hbe : boardTexts u = [] := by simp [boardTexts, hnil]
    rw [hbe] at hxB
    cases hxB

theorem likeness_exists {p : List Category} {sel : List Word}
    (hlen : sel.length = 4) (hml : maxLikeness p sel = 4) :
    ∃ c ∈ p, ∀ w ∈ sel, w.word ∈ c.items := by
  have h1 : (4 : Nat) ∈ likenessCounts p sel := by
    rcases foldl_max_eq_init_or_mem (l := likenessCounts p sel) (a := 0) with h | h
    · rw [show (likenessCounts p sel).foldl max 0 = maxLikeness p sel from rfl, hml] at h
      cases h
    · rw [show (likenessCounts p sel).foldl max 0 = maxLikeness p sel from rfl, hml] at h
      exact h
  rcases List.mem_map.mp h1 with ⟨c, hc, hcnt⟩
  refine ⟨c, hc, ?_⟩
  have hfe : sel.filter (fun item => c.items.contains item.word) = sel := by
    apply (List.filter_sublist _).eq_of_length
    rw [hcnt, hlen]
  intro w hw
  have : (fun item => c.items.contains item.word) w = true :=
    List.filter_eq_self.mp hfe w hw
  simpa using this

theorem engineInv_handleLoss {p : List Category} {s : GameState} (hv : ValidPuzzle p)
    (hpz : s.puzzleCategories = some p) (hco : Coherent p s)
    (hclp : ∀ d ∈ s.clearedCategories, d ∈ p) (hnd : s.clearedCategories.Nodup) :
    EngineInv p (handleLoss s) := by
  obtain ⟨hb, hcl, _, _, hp2, _, _⟩ := handleLoss_core hv hpz hco
  refine ⟨hp2, ?_, ?_, ?_, fun _ => hb, ?_⟩
  · unfold Coherent
    have hui : unclearedCats p (handleLoss s) = [] := by
      unfold unclearedCats
      apply List.filter_eq_nil_iff.mpr
      intro c hcp
      have hcin : c ∈ (handleLoss s).clearedCategories := by
        rw [hcl]
        by_cases h : c ∈ s.clearedCategories
        · exact List.mem_append.mpr (Or.inl h)
        · refine List.mem_append.mpr (Or.inr ?_)
          unfold unclearedCats
          exact List.mem_filter.mpr ⟨hcp, by simp [h]⟩
      simp [hcin]
    rw [hui]
    simp [boardTexts, hb]
  · intro d hd
    rw [hcl] at hd
    rcases List.mem_append.mp hd with h | h
    · exact hclp d h
    · exact (List.mem_filter.mp h).1
  · rw [hcl]
    refine hnd.append ((nodup_puzzle hv).filter _) ?_
    intro d hdc hdu
    have := (List.mem_filter.mp hdu).2
    simp at this
    exact this hdc
  · simp [selectedWords, hb]

theorem map_word_of_mk (lvl : Nat) (its : List String) :
    (its.map (fun w => ({ ref := 0, word := w, level := lvl, selected := false } : Word))).map
      (fun w => w.word) = its := by
  induction its with
  | nil => rfl
  | cons x xs ih =>
    simp only [List.map_cons]
    rw [ih]

theorem initWords_texts (p : List Category) :
    (initWords p).map (fun w => w.word) = (p.map (fun c => c.items)).flatten := by
  unfold initWords
  rw [List.map_flatten, List.map_map]
  congr 1
  apply List.map_congr_left
  intro c _
  exact map_word_of_mk c.level c.items

theorem reachable_engineInv {p : List Category} {s : GameState} (hv : ValidPuzzle p)
    (hr : Reachable p s) : EngineInv p s := by
  induction hr with
  | init ws hperm =>
    refine ⟨rfl, ?_, ?_, List.nodup_nil, ?_, ?_⟩
    · unfold Coherent boardTexts unclearedCats mkInitState
      have h2 : p.filter (fun c => !(([] : List Category).contains c)) = p := by
        apply List.filter_eq_self.mpr
        intro c _
        rfl
      show (ws.map (fun w => w.word)).Perm _
      rw [h2, ← initWords_texts p]
      exact hperm.map _
    · intro c hc
      cases hc
    · intro h
      rcases h with h | h <;> cases h
    · show (ws.filter (fun w => w.selected)).length ≤ 4
      have h0 : ws.countP (fun w => w.selected) = (initWords p).countP (fun w => w.selected) :=
        hperm.countP_eq _
      have h1 : (initWords p).countP (fun w => w.selected) = 0 := by
        apply List.countP_eq_zero.mpr
        intro w hw
        unfold initWords at hw
        rcases List.mem_flatten.mp hw with ⟨l, hl, hwl⟩
        rcases List.mem_map.mp hl with ⟨c, _, rfl⟩
        rcases List.mem_map.mp hwl with ⟨x, _, rfl⟩
        simp
      rw [← List.countP_eq_length_filter, h0, h1]
      omega
  | select s w _ ih =>
    obtain ⟨hpz, hco, hclp, hnd, hterm, hcnt⟩ := ih
    have hf := selectWord_fields w s
    refine ⟨hf.1.trans hpz, ?_, ?_, ?_, ?_, ?_⟩
    · unfold Coherent
      rw [boardTexts_selectWord]
      exact hco
    · intro d hd
      rw [hf.2.1] at hd
      exact hclp d hd
    · rw [hf.2.1]
      exact hnd
    · intro h
      rw [hf.2.2.1, hf.2.2.2.1] at h
      have hb := hterm h
      show (s.gameWords.map _) = []
      rw [hb]
      rfl
    · exact selectedWords_selectWord_le w s (nodup_boardTexts hv hco) hcnt
  | deselect s _ ih =>
    obtain ⟨hpz, hco, hclp, hnd, hterm, hcnt⟩ := ih
    have hf := deselectAll_fields s
    refine ⟨hf.1.trans hpz, ?_, ?_, ?_, ?_, ?_⟩
    · unfold Coherent
      rw [boardTexts_deselectAll]
      exact hco
    · intro d hd
      rw [hf.2.1] at hd
      exact hclp d hd
    · rw [hf.2.1]
      exact hnd
    · intro h
      rw [hf.2.2.1, hf.2.2.2.1] at h
      have hb := hterm h
      show (s.gameWords.map _) = []
      rw [hb]
      rfl
    · rw [selectedWords_deselectAll]
      simp
  | shuffle s ws _ hperm ih =>
    obtain ⟨hpz, hco, hclp, hnd, hterm, hcnt⟩ := ih
    refine ⟨hpz, ?_, hclp, hnd, ?_, ?_⟩
    · unfold Coherent
      exact (hperm.map _).trans hco
    · intro h
      have hb := hterm h
      rw [hb] at hperm
      exact hperm.eq_nil
    · show (ws.filter (fun w => w.selected)).length ≤ 4
      rw [selectedWords_length_countP] at hcnt
      rw [← List.countP_eq_length_filter, hperm.countP_eq]
      exact hcnt
  | submit s _ hw hl hlen ih =>
    obtain ⟨hpz, hco, hclp, hnd, hterm, hcnt⟩ := ih
    obtain ⟨pz, gw, cl, iw, il, mr, gh, fr⟩ := s
    have hpz2 : pz = some p := hpz
    subst hpz2
    set s : GameState := ⟨some p, gw, cl, iw, il, mr, gh, fr⟩ with hs
    simp only [postSubmit, getSubmitResult]
    by_cases hsg : sameGuess s = true
    · rw [if_pos hsg]
      exact ⟨hpz, hco, hclp, hnd, hterm, hcnt⟩
    · rw [if_neg hsg]
      by_cases hml : maxLikeness p (selectedWords s) = 4
      · rw [if_pos (by simp [hml])]
        obtain ⟨c, hc, hsub⟩ := likeness_exists hlen hml
        have hid := likeness_identify hv hlen (nodup_selectedTexts hv hco) hc hsub
        have hnc : c ∉ s.clearedCategories := by
          apply matched_not_cleared hv hco hc
          have hne : selectedWords s ≠ [] := by
            intro h
            rw [h] at hlen
            cases hlen
          rcases List.exists_mem_of_ne_nil _ hne with ⟨w0, hw0⟩
          exact ⟨w0, hw0, hsub w0 hw0⟩
        rw [hid.2.1]
        have heff := correct_effect (t := { s with
            guessHistory := s.guessHistory ++ [selectedWords s] })
          hv hco hclp hnd hc hnc
        rcases hgc : getCorrectResult c { s with
            guessHistory := s.guessHistory ++ [selectedWords s] } with ⟨r, u⟩
        obtain ⟨hucl, hucoh, huclp, hund, _, hupz, huw, hulo, _, _, husel,
          hwin3, hwinb, _, hwc⟩ := heff r u hgc
        rcases hwc with hrw | hrc
        · subst hrw
          show EngineInv p (handleWin u)
          refine ⟨?_, ?_, ?_, ?_, ?_, ?_⟩
          · show u.puzzleCategories = some p
            exact hupz.trans hpz
          · show Coherent p u
            exact hucoh
          · exact huclp
          · exact hund
          · intro _
            exact hwinb rfl
          · show (selectedWords u).length ≤ 4
            refine le_trans husel ?_
            show (selectedWords s).length ≤ 4
            exact hcnt
        · subst hrc
          show EngineInv p u
          refine ⟨hupz.trans hpz, hucoh, huclp, hund, ?_, ?_⟩
          · intro h
            rw [huw, hulo] at h
            show u.gameWords = []
            rcases h with h | h
            · rw [hw] at h; cases h
            · rw [hl] at h; cases h
          · refine le_trans husel ?_
            show (selectedWords s).length ≤ 4
            exact hcnt
      · rw [if_neg (by simp [hml])]
        unfold getIncorrectResult
        by_cases h1 : s.mistakesRemaining = 1
        · rw [if_pos (by simpa using h1)]
          show EngineInv p (handleLoss _)
          exact engineInv_handleLoss hv rfl hco hclp hnd
        · rw [if_neg (by simpa using h1)]
          by_cases h2 : maxLikeness p (selectedWords s) = 3
          · rw [if_pos (by simpa using h2)]
            exact ⟨hpz, hco, hclp, hnd, fun h => hterm h, hcnt⟩
          · rw [if_neg (by simpa using h2)]
            exact ⟨hpz, hco, hclp, hnd, fun h => hterm h, hcnt⟩

theorem getSubmitResult_same {s : GameState} {cats : List Category}
    (hpz : s.puzzleCategories = some cats) (hsg : sameGuess s = true) :
    getSubmitResult s = (.same, s) := by
  obtain ⟨pz, gw, cl, iw, il, mr, gh, fr⟩ := s
  have hpz2 : pz = some cats := hpz
  subst hpz2
  simp only [getSubmitResult]
  rw [if_pos hsg]

theorem getSubmitResult_not_same {s : GameState} {cats : List Category}
    (hpz : s.puzzleCategories = some cats) (hsg : sameGuess s = false) :
    getSubmitResult s =
      if maxLikeness cats (selectedWords s) == 4 then
        getCorrectResult (cats.getD (maxLikenessIdx cats (selectedWords s)) ⟨"", 0, []⟩)
          { s with guessHistory := s.guessHistory ++ [selectedWords s] }
      else
        getIncorrectResult (maxLikeness cats (selectedWords s))
          { s with guessHistory := s.guessHistory ++ [selectedWords s] } := by
  obtain ⟨pz, gw, cl, iw, il, mr, gh, fr⟩ := s
  have hpz2 : pz = some cats := hpz
  subst hpz2
  simp only [getSubmitResult]
  rw [if_neg (by simp [hsg])]

theorem incorrect_path {s : GameState} {cats : List Category}
    (hpz : s.puzzleCategories = some cats) (hsg : sameGuess s = false)
    (hml : maxLikeness cats (selectedWords s) < 4) :
    getSubmitResult s =
      (if s.mistakesRemaining = 1 then .loss
       else if maxLikeness cats (selectedWords s) = 3 then .oneAway
       else .incorrect,
       { s with
         guessHistory := s.guessHistory ++ [selectedWords s]
         mistakesRemaining := s.mistakesRemaining - 1 }) := by
  rw [getSubmitResult_not_same hpz hsg]
  rw [if_neg (by simp; omega)]
  unfold getIncorrectResult
  by_cases h1 : s.mistakesRemaining = 1
  · rw [if_pos (by simpa using h1), if_pos h1]
  · rw [if_neg (by simpa using h1), if_neg h1]
    by_cases h2 : maxLikeness cats (selectedWords s) = 3
    · rw [if_pos (by simpa using h2), if_pos h2]
    · rw [if_neg (by simpa using h2), if_neg h2]

theorem maxLikeness_le (cats : List Category) (sel : List Word) :
    maxLikeness cats sel ≤ sel.length := by
  apply foldl_max_le (Nat.zero_le _)
  intro b hb
  rcases List.mem_map.mp hb with ⟨c, _, rfl⟩
  exact List.length_filter_le _ _

theorem selectWord_deselects (w : Word) (s : GameState)
    (hall : ∀ it ∈ s.gameWords, it.word = w.word → it.selected = true) :
    ∀ it ∈ (selectWord w s).gameWords, it.word = w.word → it.selected = false := by
  intro it hit hwd
  unfold selectWord at hit
  simp only [List.mem_map] at hit
  rcases hit with ⟨x, hx, hfx⟩
  by_cases hm : w.word = x.word
  · have hsel := hall x hx hm.symm
    subst hfx
    by_cases hlt : (selectedWords s).length < 4 <;> simp [hm, hsel, hlt]
  · rw [if_neg (by simpa using hm)] at hfx
    subst hfx
    exact absurd hwd.symm hm

theorem selectWord_selects (w : Word) (s : GameState)
    (hlt : (selectedWords s).length < 4)
    (hun : ∀ it ∈ s.gameWords, it.word = w.word → it.selected = false) :
    ∀ it ∈ (selectWord w s).gameWords, it.word = w.word → it.selected = true := by
  intro it hit hwd
  unfold selectWord at hit
  simp only [List.mem_map] at hit
  rcases hit with ⟨x, hx, hfx⟩
  by_cases hm : w.word = x.word
  · have hsel := hun x hx hm.symm
    subst hfx
    simp [hm, hsel, hlt]
  · rw [if_neg (by simpa using hm)] at hfx
    subst hfx
    exact absurd hwd.symm hm

theorem selectWord_noop_view (w : Word) (s : GameState)
    (h4 : ¬((selectedWords s).length < 4))
    (hun : ∀ it ∈ s.gameWords, it.word = w.word → it.selected = false) :
    (selectWord w s).gameWords.map wordView = s.gameWords.map wordView := by
  unfold selectWord
  simp only [List.map_map]
  apply List.map_congr_left
  intro it hit
  by_cases hm : w.word = it.word
  · have hsel := hun it hit hm.symm
    simp [wordView, hm, h4, hsel]
  · simp [wordView, hm]

/-- Claim C9: when no puzzle is loaded, `getSubmitResult` returns the tag
`incorrect` and leaves the whole state unchanged: no guess is recorded, no
mistake is spent, board and cleared categories are untouched. -/
theorem claim_c9_no_puzzle_incorrect_noop (s : GameState)
    (h : s.puzzleCategories = none) :
    getSubmitResult s = (.incorrect, s) := by
  obtain ⟨pz, gw, cl, iw, il, mr, gh, fr⟩ := s
  have hpz2 : pz = none := h
  subst hpz2
  rfl

theorem claim_c9_witness : getSubmitResult noPuzzleState = (.incorrect, noPuzzleState) :=
  claim_c9_no_puzzle_incorrect_noop noPuzzleState rfl

/-- Claim C10: `getIncorrectResult` reports `loss` exactly when Mistakes
Remaining equals 1 at entry; invoked with a non-repeat non-matching 4-word
selection at 0 mistakes, `getSubmitResult` drives the counter to -1 (there
is no lower bound guard) and reports `one-away` or `incorrect`, not `loss`. -/
theorem claim_c10_loss_iff_one_mistake (s : GameState) (cats : List Category)
    (hpz : s.puzzleCategories = some cats) (hsg : sameGuess s = false)
    (hml : maxLikeness cats (selectedWords s) < 4) :
    (∀ ml t, ((getIncorrectResult ml t).1 = .loss ↔ t.mistakesRemaining = 1)) ∧
    ((getSubmitResult s).1 = .loss ↔ s.mistakesRemaining = 1) ∧
    (s.mistakesRemaining = 0 →
      (getSubmitResult s).2.mistakesRemaining = -1 ∧
      (getSubmitResult s).1 ≠ .loss ∧
      ((getSubmitResult s).1 = .oneAway ∨ (getSubmitResult s).1 = .incorrect)) := by
  have hgen : ∀ ml t, ((getIncorrectResult ml t).1 = SubmitResult.loss ↔
      t.mistakesRemaining = 1) := by
    intro ml t
    unfold getIncorrectResult
    by_cases h1 : t.mistakesRemaining = 1
    · rw [if_pos (by simpa using h1)]
      simp [h1]
    · rw [if_neg (by simpa using h1)]
      by_cases h2 : ml = 3
      · rw [if_pos (by simpa using h2)]
        simp [h1]
      · rw [if_neg (by simpa using h2)]
        simp [h1]
  refine ⟨hgen, ?_, ?_⟩
  · rw [incorrect_path hpz hsg hml]
    by_cases h1 : s.mistakesRemaining = 1
    · rw [if_pos h1]
      simp [h1]
    · rw [if_neg h1]
      by_cases h2 : maxLikeness cats (selectedWords s) = 3
      · rw [if_pos h2]
        simp [h1]
      · rw [if_neg h2]
        simp [h1]
  · intro h0
    rw [incorrect_path hpz hsg hml]
    have h1 : s.mistakesRemaining ≠ 1 := by omega
    rw [if_neg h1]
    refine ⟨by simp [h0], ?_, ?_⟩
    · by_cases h2 : maxLikeness cats (selectedWords s) = 3
      · rw [if_pos h2]; simp
      · rw [if_neg h2]; simp
    · by_cases h2 : maxLikeness cats (selectedWords s) = 3
      · rw [if_pos h2]; simp
      · rw [if_neg h2]; simp

theorem claim_c10_witness :
    sameGuess demoZeroMistakes = false ∧
    maxLikeness demoPuzzle (selectedWords demoZeroMistakes) < 4 ∧
    (((getSubmitResult demoZeroMistakes).1 = .loss ↔
        demoZeroMistakes.mistakesRemaining = 1) ∧
      (demoZeroMistakes.mistakesRemaining = 0 →
        (getSubmitResult demoZeroMistakes).2.mistakesRemaining = -1 ∧
        (getSubmitResult demoZeroMistakes).1 ≠ .loss ∧
        ((getSubmitResult demoZeroMistakes).1 = .oneAway ∨
          (getSubmitResult demoZeroMistakes).1 = .incorrect))) :=
  ⟨by decide, by decide,
    (claim_c10_loss_iff_one_mistake demoZeroMistakes demoPuzzle rfl (by decide)
        (by decide)).2⟩

/-- Claim C3: a non-repeat four-word guess with maximum likeness below 4
spends exactly one mistake; the result is `loss` exactly when the counter
thereby reaches 0 (this takes priority over the 3-of-4 condition); otherwise
it is `one-away` exactly when the maximum likeness is 3, else `incorrect`. -/
theorem claim_c3_incorrect_guess_accounting (s : GameState) (cats : List Category)
    (hpz : s.puzzleCategories = some cats) (hsg : sameGuess s = false)
    (hlen : (selectedWords s).length = 4)
    (hml : maxLikeness cats (selectedWords s) < 4) :
    (getSubmitResult s).2.mistakesRemaining = s.mistakesRemaining - 1 ∧
    ((getSubmitResult s).1 = .loss ↔ (getSubmitResult s).2.mistakesRemaining = 0) ∧
    ((getSubmitResult s).2.mistakesRemaining ≠ 0 →
      ((getSubmitResult s).1 = .oneAway ↔ maxLikeness cats (selectedWords s) = 3)) ∧
    ((getSubmitResult s).2.mistakesRemaining ≠ 0 →
      maxLikeness cats (selectedWords s) ≠ 3 → (getSubmitResult s).1 = .incorrect) := by
  rw [incorrect_path hpz hsg hml]
  refine ⟨by simp, ?_, ?_, ?_⟩
  · by_cases h1 : s.mistakesRemaining = 1
    · rw [if_pos h1]
      simp [h1]
    · rw [if_neg h1]
      have : s.mistakesRemaining - 1 ≠ 0 := by omega
      by_cases h2 : maxLikeness cats (selectedWords s) = 3
      · rw [if_pos h2]; simp [this]
      · rw [if_neg h2]; simp [this]
  · intro hnz
    simp only at hnz
    have h1 : s.mistakesRemaining ≠ 1 := by omega
    rw [if_neg h1]
    by_cases h2 : maxLikeness cats (selectedWords s) = 3
    · rw [if_pos h2]; simp [h2]
    · rw [if_neg h2]; simp [h2]
  · intro hnz h2
    simp only at hnz
    have h1 : s.mistakesRemaining ≠ 1 := by omega
    rw [if_neg h1, if_neg h2]

theorem claim_c3_witness :
    sameGuess demoStep1 = false ∧
    (selectedWords demoStep1).length = 4 ∧
    maxLikeness demoPuzzle (selectedWords demoStep1) < 4 ∧
    ((getSubmitResult demoStep1).2.mistakesRemaining = demoStep1.mistakesRemaining - 1 ∧
     ((getSubmitResult demoStep1).1 = .loss ↔
        (getSubmitResult demoStep1).2.mistakesRemaining = 0) ∧
     ((getSubmitResult demoStep1).2.mistakesRemaining ≠ 0 →
       ((getSubmitResult demoStep1).1 = .oneAway ↔
         maxLikeness demoPuzzle (selectedWords demoStep1) = 3)) ∧
     ((getSubmitResult demoStep1).2.mistakesRemaining ≠ 0 →
       maxLikeness demoPuzzle (selectedWords demoStep1) ≠ 3 →
       (getSubmitResult demoStep1).1 = .incorrect)) :=
  ⟨by decide, by decide, by decide,
    claim_c3_incorrect_guess_accounting demoStep1 demoPuzzle rfl (by decide) (by decide)
      (by decide)⟩

/-- Claim C1 (amended): the engine function `getSubmitResult` performs no
selection-size precondition check of its own; the precondition is enforced by
the Presentation Layer, whose Submit button is unclickable unless exactly 4
words are selected. If `getSubmitResult` is nevertheless invoked with fewer
than 4 selected words (and no matching history entry), it treats them as a
normal guess: the selection is appended to Guess History and Mistakes
Remaining is decremented. -/
theorem claim_c1_small_selection_not_rejected (s : GameState) (cats : List Category)
    (hpz : s.puzzleCategories = some cats)
    (hlen : (selectedWords s).length < 4)
    (hsg : sameGuess s = false) :
    (∀ loadingPuzzle puzzleError submitted,
      submitUnclickable loadingPuzzle puzzleError submitted s = true) ∧
    (getSubmitResult s).2.guessHistory = s.guessHistory ++ [selectedWords s] ∧
    (getSubmitResult s).2.mistakesRemaining = s.mistakesRemaining - 1 := by
  have hml : maxLikeness cats (selectedWords s) < 4 :=
    lt_of_le_of_lt (maxLikeness_le cats (selectedWords s)) hlen
  rw [incorrect_path hpz hsg hml]
  refine ⟨?_, by simp, by simp⟩
  intro loadingPuzzle puzzleError submitted
  unfold submitUnclickable
  have hne : (selectedWords s).length ≠ 4 := by omega
  simp [hne]

/-- Claim C1 (counterexample): right after `Initialize`, submitting with an
empty selection is not rejected: the empty guess is pushed onto Guess
History (length 0 to 1) and Mistakes Remaining drops from 4 to 3, so the
state is not left unchanged. -/
theorem claim_c1_counterexample :
    (selectedWords demoInit).length < 4 ∧
    demoInit.guessHistory.length = 0 ∧
    demoInit.mistakesRemaining = 4 ∧
    (getSubmitResult demoInit).2.guessHistory.length = 1 ∧
    (getSubmitResult demoInit).2.mistakesRemaining = 3 ∧
    (getSubmitResult demoInit).2 ≠ demoInit := by
  decide

theorem claim_c1_witness :
    (selectedWords demoInit).length < 4 ∧ sameGuess demoInit = false ∧
    ((∀ loadingPuzzle puzzleError submitted,
        submitUnclickable loadingPuzzle puzzleError submitted demoInit = true) ∧
     (getSubmitResult demoInit).2.guessHistory =
        demoInit.guessHistory ++ [selectedWords demoInit] ∧
     (getSubmitResult demoInit).2.mistakesRemaining = demoInit.mistakesRemaining - 1) :=
  ⟨by decide, by decide,
    claim_c1_small_selection_not_rejected demoInit demoPuzzle rfl (by decide) (by decide)⟩

/-- Claim C2 (amended): the repeated-guess test compares the stored `Word`
objects by JavaScript reference identity (modelled by the `ref` tag), not by
word text: when some history entry's word objects are all present in the
current selection, `getSubmitResult` returns `same` and leaves the state
unchanged. Immediate resubmission satisfies this (the objects are the same),
but re-forming the same word set after the tiles were re-created (for
instance by Deselect All) is not detected — see the counterexample. -/
theorem claim_c2_repeat_is_reference_based (s : GameState) (cats : List Category)
    (hpz : s.puzzleCategories = some cats)
    (g : List Word) (hg : g ∈ s.guessHistory)
    (hsub : ∀ w ∈ g, w ∈ selectedWords s) :
    getSubmitResult s = (.same, s) := by
  apply getSubmitResult_same hpz
  unfold sameGuess
  apply List.any_eq_true.mpr
  refine ⟨g, hg, ?_⟩
  apply List.all_eq_true.mpr
  intro w hw
  simpa using hsub w hw

/-- Claim C2 (counterexample): after a wrong guess, Deselect All and
re-selecting exactly the same four words, the selection equals the history
entry as a set of word texts, yet `getSubmitResult` does not return `same`:
it logs the guess a second time and decrements Mistakes Remaining again. -/
theorem claim_c2_counterexample :
    demoReselected.guessHistory.length = 1 ∧
    ((demoReselected.guessHistory.getD 0 []).map (fun w => w.word)).Perm
      ((selectedWords demoReselected).map (fun w => w.word)) ∧
    (selectedWords demoReselected).length = 4 ∧
    (getSubmitResult demoReselected).1 ≠ .same ∧
    (getSubmitResult demoReselected).2.guessHistory.length = 2 ∧
    (getSubmitResult demoReselected).2.mistakesRemaining =
      demoReselected.mistakesRemaining - 1 := by
  decide

theorem claim_c2_witness :
    (demoAfterGuess.guessHistory.getD 0 [] ∈ demoAfterGuess.guessHistory ∧
     ∀ w ∈ demoAfterGuess.guessHistory.getD 0 [], w ∈ selectedWords demoAfterGuess) ∧
    getSubmitResult demoAfterGuess = (.same, demoAfterGuess) :=
  ⟨⟨by decide, by decide⟩,
    claim_c2_repeat_is_reference_based demoAfterGuess demoPuzzle rfl
      (demoAfterGuess.guessHistory.getD 0 []) (by decide) (by decide)⟩

theorem reachable_selectTexts (p : List Category) (ts : List String) (s : GameState)
    (hr : Reachable p s) : Reachable p (selectTexts ts s) := by
  unfold selectTexts
  induction ts generalizing s with
  | nil => exact hr
  | cons t ts ih => exact ih _ (Reachable.select s _ hr)

theorem reachable_demoInit : Reachable demoPuzzle demoInit :=
  Reachable.init _ (List.Perm.refl _)

theorem reachable_demoStep8 : Reachable demoPuzzle demoStep8 := by
  have h1 := reachable_selectTexts demoPuzzle ["APPLE", "PEAR", "PLUM", "RED"] demoInit
    reachable_demoInit
  have h2 : Reachable demoPuzzle demoStep2 :=
    Reachable.submit demoStep1 h1 (by decide) (by decide) (by decide)
  have h3 := reachable_selectTexts demoPuzzle ["RED", "BLUE"] demoStep2 h2
  have h4 : Reachable demoPuzzle demoStep4 :=
    Reachable.submit demoStep3 h3 (by decide) (by decide) (by decide)
  have h5 := reachable_selectTexts demoPuzzle ["BLUE", "GREEN"] demoStep4 h4
  have h6 : Reachable demoPuzzle demoStep6 :=
    Reachable.submit demoStep5 h5 (by decide) (by decide) (by decide)
  have h7 := reachable_selectTexts demoPuzzle ["GREEN", "GOLD"] demoStep6 h6
  exact Reachable.submit demoStep7 h7 (by decide) (by decide) (by decide)

/-- Claim C5: in every reachable round state the selection has at most 4
words (and still at most 4 after any further toggle); toggling a word whose
board tiles are all selected always deselects it — so a word selected by one
click is deselected by the next click on it — and toggling an unselected
word while 4 words are selected changes no tile's text, level or selected
flag. -/
theorem claim_c5_selection_capped (p : List Category) (s : GameState)
    (hv : ValidPuzzle p) (hr : Reachable p s) :
    (selectedWords s).length ≤ 4 ∧
    (∀ w, (selectedWords (selectWord w s)).length ≤ 4) ∧
    (∀ w, (∀ it ∈ s.gameWords, it.word = w.word → it.selected = true) →
      ∀ it ∈ (selectWord w s).gameWords, it.word = w.word → it.selected = false) ∧
    (∀ w, (selectedWords s).length < 4 →
      (∀ it ∈ s.gameWords, it.word = w.word → it.selected = false) →
      ∀ it ∈ (selectWord w (selectWord w s)).gameWords,
        it.word = w.word → it.selected = false) ∧
    ((selectedWords s).length = 4 →
      ∀ w, (∀ it ∈ s.gameWords, it.word = w.word → it.selected = false) →
        (selectWord w s).gameWords.map wordView = s.gameWords.map wordView) := by
  have hinv := reachable_engineInv hv hr
  have hnd : (boardTexts s).Nodup := nodup_boardTexts hv hinv.2.1
  have hcnt : (selectedWords s).length ≤ 4 := hinv.2.2.2.2.2
  refine ⟨hcnt, ?_, ?_, ?_, ?_⟩
  · intro w
    exact selectedWords_selectWord_le w s hnd hcnt
  · intro w hall
    exact selectWord_deselects w s hall
  · intro w hlt hun
    exact selectWord_deselects w (selectWord w s) (selectWord_selects w s hlt hun)
  · intro h4 w hun
    exact selectWord_noop_view w s (by omega) hun

theorem claim_c5_witness :
    ((selectedWords demoInit).length ≤ 4 ∧
     (∀ w, (selectedWords (selectWord w demoInit)).length ≤ 4) ∧
     (∀ w, (∀ it ∈ demoInit.gameWords, it.word = w.word → it.selected = true) →
       ∀ it ∈ (selectWord w demoInit).gameWords, it.word = w.word → it.selected = false) ∧
     (∀ w, (selectedWords demoInit).length < 4 →
       (∀ it ∈ demoInit.gameWords, it.word = w.word → it.selected = false) →
       ∀ it ∈ (selectWord w (selectWord w demoInit)).gameWords,
         it.word = w.word → it.selected = false) ∧
     ((selectedWords demoInit).length = 4 →
       ∀ w, (∀ it ∈ demoInit.gameWords, it.word = w.word → it.selected = false) →
         (selectWord w demoInit).gameWords.map wordView =
           demoInit.gameWords.map wordView)) :=
  claim_c5_selection_capped demoPuzzle demoInit (by decide) reachable_demoInit

/-- Claim C6: with no loaded puzzle a cell click is a no-op through the page
guard; in a reachable state whose outcome is `Won` or `Lost`, a cell click —
and even a direct `selectWord` call — leaves the engine state exactly
unchanged (the board is empty in such states). -/
theorem claim_c6_toggle_noop_when_not_in_progress (p : List Category) (s : GameState) :
    (s.puzzleCategories = none →
      ∀ loadingPuzzle puzzleError w, onClickCell loadingPuzzle puzzleError w s = s) ∧
    (ValidPuzzle p → Reachable p s → (s.isWon = true ∨ s.isLost = true) →
      ∀ loadingPuzzle puzzleError w,
        selectWord w s = s ∧ onClickCell loadingPuzzle puzzleError w s = s) := by
  constructor
  · intro hn loadingPuzzle puzzleError w
    unfold onClickCell
    rw [if_pos ?_]
    unfold controlsDisabled
    rw [hn]
    simp
  · intro hv hr hterm loadingPuzzle puzzleError w
    have hinv := reachable_engineInv hv hr
    have hb : s.gameWords = [] := hinv.2.2.2.2.1 hterm
    have hsw : selectWord w s = s := by
      obtain ⟨pz, gw, cl, iw, il, mr, gh, fr⟩ := s
      have hgw : gw = [] := hb
      subst hgw
      rfl
    refine ⟨hsw, ?_⟩
    unfold onClickCell
    by_cases hcd : controlsDisabled loadingPuzzle puzzleError s = true
    · rw [if_pos hcd]
    · rw [if_neg hcd]
      exact hsw

theorem claim_c6_witness :
    (∀ loadingPuzzle puzzleError w,
      onClickCell loadingPuzzle puzzleError w noPuzzleState = noPuzzleState) ∧
    (demoStep8.isLost = true ∧
     ∀ loadingPuzzle puzzleError w,
       selectWord w demoStep8 = demoStep8 ∧
       onClickCell loadingPuzzle puzzleError w demoStep8 = demoStep8) :=
  ⟨(claim_c6_toggle_noop_when_not_in_progress demoPuzzle noPuzzleState).1 rfl,
   by decide,
   (claim_c6_toggle_noop_when_not_in_progress demoPuzzle demoStep8).2 (by decide)
     reachable_demoStep8 (Or.inr (by decide))⟩

/-- Claim C4: a non-repeat four-word guess whose texts are exactly one
category's items appends that category to Cleared Categories (growing it by
one), removes its four words from the board (the board shrinks by 4), leaves
Mistakes Remaining unchanged, and yields `correct` — or `win` exactly when
this is the fourth category cleared, which is also exactly when the board
becomes empty. -/
theorem claim_c4_correct_guess_clears_category (p : List Category) (s : GameState)
    (c : Category) (hv : ValidPuzzle p) (hinv : EngineInv p s)
    (hsg : sameGuess s = false) (hlen : (selectedWords s).length = 4)
    (hc : c ∈ p)
    (hmatch : ((selectedWords s).map (fun w => w.word)).Perm c.items) :
    (getSubmitResult s).2.clearedCategories = s.clearedCategories ++ [c] ∧
    (getSubmitResult s).2.gameWords.length + 4 = s.gameWords.length ∧
    (getSubmitResult s).2.mistakesRemaining = s.mistakesRemaining ∧
    ((getSubmitResult s).1 = .win ∨ (getSubmitResult s).1 = .correct) ∧
    ((getSubmitResult s).1 = .win ↔ s.clearedCategories.length = 3) ∧
    ((getSubmitResult s).1 = .win ↔ (getSubmitResult s).2.gameWords = []) := by
  obtain ⟨hpz, hco, hclp, hnd, _, _⟩ := hinv
  have hsub : ∀ w ∈ selectedWords s, w.word ∈ c.items := by
    intro w hw
    exact hmatch.subset (List.mem_map_of_mem _ hw)
  have hid := likeness_identify hv hlen (nodup_selectedTexts hv hco) hc hsub
  have hne : selectedWords s ≠ [] := by
    intro h
    rw [h] at hlen
    cases hlen
  have hnc : c ∉ s.clearedCategories := by
    apply matched_not_cleared hv hco hc
    rcases List.exists_mem_of_ne_nil _ hne with ⟨w0, hw0⟩
    exact ⟨w0, hw0, hsub w0 hw0⟩
  rw [getSubmitResult_not_same hpz hsg, if_pos (by simp [hid.1]), hid.2.1]
  rcases hgc : getCorrectResult c
      { s with guessHistory := s.guessHistory ++ [selectedWords s] } with ⟨r, u⟩
  obtain ⟨hucl, _, _, _, hulen, _, _, _, humr, _, _, hwin3, hwinb, hcorb, hwc⟩ :=
    correct_effect (t := { s with guessHistory := s.guessHistory ++ [selectedWords s] })
      hv hco hclp hnd hc hnc r u hgc
  refine ⟨hucl, hulen, humr, hwc, hwin3, ?_⟩
  constructor
  · intro hr
    exact hwinb hr
  · intro hbe
    rcases hwc with hr | hr
    · exact hr
    · exact absurd hbe (hcorb hr)

theorem claim_c4_witness :
    (ValidPuzzle demoPuzzle ∧ EngineInv demoPuzzle demoSelected ∧
     sameGuess demoSelected = false ∧ (selectedWords demoSelected).length = 4 ∧
     ((selectedWords demoSelected).map (fun w => w.word)).Perm
       ["APPLE", "PEAR", "PLUM", "KIWI"]) ∧
    ((getSubmitResult demoSelected).2.clearedCategories =
        demoSelected.clearedCategories ++ [⟨"FRUIT", 1, ["APPLE", "PEAR", "PLUM", "KIWI"]⟩] ∧
     (getSubmitResult demoSelected).2.gameWords.length + 4 =
        demoSelected.gameWords.length ∧
     (getSubmitResult demoSelected).2.mistakesRemaining =
        demoSelected.mistakesRemaining ∧
     ((getSubmitResult demoSelected).1 = .win ∨ (getSubmitResult demoSelected).1 = .correct) ∧
     ((getSubmitResult demoSelected).1 = .win ↔ demoSelected.clearedCategories.length = 3) ∧
     ((getSubmitResult demoSelected).1 = .win ↔ (getSubmitResult demoSelected).2.gameWords = [])) :=
  ⟨⟨by decide, by decide, by decide, by decide, by decide⟩,
    claim_c4_correct_guess_clears_category demoPuzzle demoSelected
      ⟨"FRUIT", 1, ["APPLE", "PEAR", "PLUM", "KIWI"]⟩ (by decide) (by decide) (by decide)
      (by decide) (by decide) (by decide)⟩

/-- Claim C7: `handleLoss` first deselects all words and then clears each
not-yet-cleared category exactly once, in ascending level order (the puzzle
order the provider guarantees), appending each to Cleared Categories and
removing its words from the board; afterwards the board is empty, every
category of the puzzle is in Cleared Categories, and `isLost` is set. -/
theorem claim_c7_loss_reveal (p : List Category) (s : GameState)
    (hv : ValidPuzzle p) (hinv : EngineInv p s) :
    handleLoss s =
      { (unclearedCats p s).foldl revealStep (deselectAllWords s) with isLost := true } ∧
    (handleLoss s).gameWords = [] ∧
    (handleLoss s).clearedCategories = s.clearedCategories ++ unclearedCats p s ∧
    (unclearedCats p s).Nodup ∧
    ((unclearedCats p s).map (fun c => c.level)).Pairwise (· < ·) ∧
    (∀ c ∈ p, c ∈ (handleLoss s).clearedCategories) ∧
    (∀ c ∈ p, c ∉ s.clearedCategories → (handleLoss s).clearedCategories.count c = 1) ∧
    (handleLoss s).isLost = true := by
  obtain ⟨hpz, hco, hclp, hnd, _, _⟩ := hinv
  obtain ⟨hb, hcl, hlost, _, _, _, _⟩ := handleLoss_core hv hpz hco
  have hdef : handleLoss s =
      { (unclearedCats p s).foldl revealStep (deselectAllWords s) with isLost := true } := by
    unfold handleLoss
    rw [hpz]
    rfl
  have hundup : (unclearedCats p s).Nodup := (nodup_puzzle hv).filter _
  refine ⟨hdef, hb, hcl, hundup, ?_, ?_, ?_, hlost⟩
  · have hsubl : ((unclearedCats p s).map (fun c => c.level)).Sublist
        (p.map (fun c => c.level)) := (List.filter_sublist p).map _
    rw [hv.1] at hsubl
    have hsort : ([1, 2, 3, 4] : List Nat).Pairwise (· < ·) := by decide
    exact hsort.sublist hsubl
  · intro c hcp
    rw [hcl]
    by_cases h : c ∈ s.clearedCategories
    · exact List.mem_append.mpr (Or.inl h)
    · refine List.mem_append.mpr (Or.inr ?_)
      unfold unclearedCats
      exact List.mem_filter.mpr ⟨hcp, by simp [h]⟩
  · intro c hcp hncl
    rw [hcl, List.count_append]
    have h0 : s.clearedCategories.count c = 0 := List.count_eq_zero.mpr hncl
    have hcu : c ∈ unclearedCats p s := by
      unfold unclearedCats
      exact List.mem_filter.mpr ⟨hcp, by simp [hncl]⟩
    have h1 : (unclearedCats p s).count c = 1 := List.count_eq_one_of_mem hundup hcu
    rw [h0, h1]

theorem claim_c7_witness :
    (ValidPuzzle demoPuzzle ∧ EngineInv demoPuzzle demoAfterCorrect) ∧
    ((handleLoss demoAfterCorrect).gameWords = [] ∧
     (handleLoss demoAfterCorrect).clearedCategories =
        demoAfterCorrect.clearedCategories ++ unclearedCats demoPuzzle demoAfterCorrect ∧
     ((unclearedCats demoPuzzle demoAfterCorrect).map (fun c => c.level)).Pairwise (· < ·) ∧
     (∀ c ∈ demoPuzzle, c ∈ (handleLoss demoAfterCorrect).clearedCategories) ∧
     (handleLoss demoAfterCorrect).isLost = true) :=
  ⟨⟨by decide, by decide⟩,
    have h := claim_c7_loss_reveal demoPuzzle demoAfterCorrect (by decide) (by decide)
    ⟨h.2.1, h.2.2.1, h.2.2.2.2.1, h.2.2.2.2.2.1, h.2.2.2.2.2.2.2⟩⟩

theorem jsLt_empty_false (s : String) : jsLt s "" = false := by
  unfold jsLt
  have h : ("" : String).toList = [] := rfl
  rw [h]
  cases s.toList with
  | nil => rfl
  | cons a as => rfl

theorem mapGet_some_mem_keys {m : List (String × List Category)} {d : String}
    {cs : List Category} (h : mapGet m d = some cs) : d ∈ mapKeys m := by
  unfold mapGet at h
  rcases Option.map_eq_some'.mp h with ⟨kv, hfind, _⟩
  have hmem := List.mem_of_find?_eq_some hfind
  have hpred := List.find?_some hfind
  have hkey : kv.1 = d := by simpa using hpred
  rw [← hkey]
  exact List.mem_map_of_mem _ hmem

theorem mapSet_keys {m : List (String × List Category)} {k k' : String}
    {v : List Category} (h : k' ∈ mapKeys (mapSet m k v)) :
    k' ∈ mapKeys m ∨ k' = k := by
  unfold mapSet at h
  by_cases hh : mapHas m k = true
  · rw [if_pos hh] at h
    unfold mapKeys at h
    rw [List.map_map] at h
    rcases List.mem_map.mp h with ⟨kv, hkv, hk'⟩
    by_cases he : (kv.1 == k) = true
    · right
      simp only [Function.comp, he, if_pos] at hk'
      exact hk'.symm
    · left
      simp only [Function.comp, he, if_neg, Bool.false_eq_true, not_false_iff] at hk'
      rw [← hk']
      exact List.mem_map_of_mem _ hkv
  · rw [if_neg hh] at h
    unfold mapKeys at h
    rw [List.map_append] at h
    rcases List.mem_append.mp h with h2 | h2
    · exact Or.inl h2
    · right
      simpa using h2
  -- the two cases mirror overwrite-in-place versus append

theorem buildRow_keys {todayNz : String} {m : List (String × List Category)}
    {row : SheetRow} {k : String} (hk : k ∈ mapKeys (buildRow todayNz m row)) :
    k ∈ mapKeys m ∨ jsLt todayNz k = false := by
  unfold buildRow at hk
  by_cases h1 : (!(isIsoDate (jsTrim row.date))) = true
  · rw [if_pos h1] at hk
    exact Or.inl hk
  · rw [if_neg h1] at hk
    by_cases h2 : jsLt todayNz (jsTrim row.date) = true
    · rw [if_pos h2] at hk
      exact Or.inl hk
    · rw [if_neg h2] at hk
      cases hlv : jsLevelNat row.level with
      | none =>
        simp only [hlv] at hk
        exact Or.inl hk
      | some lv =>
        simp only [hlv] at hk
        by_cases h3 : (!([1, 2, 3, 4].contains lv)) = true
        · rw [if_pos h3] at hk
          exact Or.inl hk
        · rw [if_neg h3] at hk
          by_cases h4 : (jsTrim row.category == "") = true
          · rw [if_pos h4] at hk
            exact Or.inl hk
          · rw [if_neg h4] at hk
            by_cases h5 : ((rowItems row).length != 4) = true
            · rw [if_pos h5] at hk
              exact Or.inl hk
            · rw [if_neg h5] at hk
              rcases mapSet_keys hk with h | h
              · exact Or.inl h
              · right
                rw [h]
                exact Bool.eq_false_iff.mpr h2

theorem buildPuzzles_keys_le (todayNz : String) (rows : List SheetRow) :
    ∀ k ∈ mapKeys (buildPuzzles todayNz rows), jsLt todayNz k = false := by
  unfold buildPuzzles
  have hgen : ∀ (m : List (String × List Category)),
      (∀ k ∈ mapKeys m, jsLt todayNz k = false) →
      ∀ k ∈ mapKeys (rows.foldl (buildRow todayNz) m), jsLt todayNz k = false := by
    induction rows with
    | nil => intro m hm; exact hm
    | cons row rest ih =>
      intro m hm k hk
      refine ih (buildRow todayNz m row) ?_ k hk
      intro k2 hk2
      rcases buildRow_keys hk2 with h | h
      · exact hm k2 h
      · exact h
  intro k hk
  exact hgen [] (by intro k2 hk2; cases hk2) k hk

theorem mem_insertDesc {d x : String} {l : List String} (h : x ∈ insertDesc d l) :
    x = d ∨ x ∈ l := by
  induction l with
  | nil =>
    rw [show insertDesc d [] = [d] from rfl] at h
    simpa using h
  | cons y ys ih =>
    unfold insertDesc at h
    by_cases hc : jsLt y d = true
    · rw [if_pos hc] at h
      rcases List.mem_cons.mp h with h2 | h2
      · exact Or.inl h2
      · exact Or.inr h2
    · rw [if_neg hc] at h
      rcases List.mem_cons.mp h with h2 | h2
      · exact Or.inr (List.mem_cons.mpr (Or.inl h2))
      · rcases ih h2 with h3 | h3
        · exact Or.inl h3
        · exact Or.inr (List.mem_cons.mpr (Or.inr h3))

theorem mem_sortDesc {x : String} {l : List String} (h : x ∈ sortDesc l) : x ∈ l := by
  unfold sortDesc at h
  induction l with
  | nil => simpa using h
  | cons y ys ih =>
    rw [List.foldr_cons] at h
    rcases mem_insertDesc h with h2 | h2
    · exact List.mem_cons.mpr (Or.inl h2)
    · exact List.mem_cons.mpr (Or.inr (ih h2))

/-- Claim C8: the provider never serves a puzzle dated after `todayNz`: rows
dated after `todayNz` are excluded from the puzzle map (so from
`availableDates` too), a requested date strictly greater than `todayNz` is
answered with an error response, and every success body carries a date and
available dates not greater than `todayNz`. -/
theorem claim_c8_no_future_puzzles (todayNz : String) (dateParam : Option String)
    (rows : List SheetRow) :
    (∀ d cs, mapGet (buildPuzzles todayNz rows) d = some cs → jsLt todayNz d = false) ∧
    (∀ body, getPuzzleCore todayNz dateParam rows = .ok body →
      jsLt todayNz body.date = false ∧
      ∀ d ∈ body.availableDates, jsLt todayNz d = false) ∧
    (∀ d, dateParam = some d → jsLt todayNz (jsTrim d) = true →
      ∃ e, getPuzzleCore todayNz dateParam rows = .error e) := by
  have hkeys := buildPuzzles_keys_le todayNz rows
  have havail : ∀ d ∈ availableDatesOf todayNz rows, jsLt todayNz d = false := by
    intro d hd
    exact hkeys d (mem_sortDesc hd)
  refine ⟨?_, ?_, ?_⟩
  · intro d cs h
    exact hkeys d (mapGet_some_mem_keys h)
  · intro body hok
    unfold getPuzzleCore at hok
    by_cases h1 : (!(isIsoDate (requestedDateOf todayNz dateParam))) = true
    · rw [if_pos h1] at hok
      cases hok
    · rw [if_neg h1] at hok
      by_cases h2 : jsLt todayNz (requestedDateOf todayNz dateParam) = true
      · rw [if_pos h2] at hok
        cases hok
      · rw [if_neg h2] at hok
        by_cases h3 : rows.length < 1
        · rw [if_pos h3] at hok
          cases hok
        · rw [if_neg h3] at hok
          by_cases h4 : ((categoriesOf todayNz dateParam rows).length != 4) = true
          · rw [if_pos h4] at hok
            cases hok
          · rw [if_neg h4] at hok
            by_cases h5 : (((categoriesOf todayNz dateParam rows).map
                (fun c => c.level)).eraseDups.length != 4) = true
            · rw [if_pos h5] at hok
              cases hok
            · rw [if_neg h5] at hok
              by_cases h6 : ((((categoriesOf todayNz dateParam rows).map
                  (fun c => c.items)).flatten).eraseDups.length != 16) = true
              · rw [if_pos h6] at hok
                cases hok
              · rw [if_neg h6] at hok
                have hbody : body = ⟨dateToUseOf todayNz dateParam rows, todayNz,
                    availableDatesOf todayNz rows, categoriesOf todayNz dateParam rows⟩ := by
                  cases hok
                  rfl
                subst hbody
                refine ⟨?_, havail⟩
                show jsLt todayNz (dateToUseOf todayNz dateParam rows) = false
                unfold dateToUseOf
                by_cases h7 : ((dateParamTrim dateParam).isNone &&
                    !(mapHas (buildPuzzles todayNz rows) (requestedDateOf todayNz dateParam)) &&
                    !((availableDatesOf todayNz rows).isEmpty)) = true
                · rw [if_pos h7]
                  have hne : availableDatesOf todayNz rows ≠ [] := by
                    intro hnil
                    rw [hnil] at h7
                    simp at h7
                  cases hd : availableDatesOf todayNz rows with
                  | nil => exact absurd hd hne
                  | cons a t =>
                    have hma : a ∈ availableDatesOf todayNz rows := by
                      rw [hd]
                      exact List.mem_cons_self a t
                    have hja := havail a hma
                    simpa using hja
                · rw [if_neg h7]
                  exact Bool.eq_false_iff.mpr h2
  · intro d hd hfut
    have hne : jsTrim d ≠ "" := by
      intro h0
      rw [h0, jsLt_empty_false] at hfut
      cases hfut
    have hreq : requestedDateOf todayNz dateParam = jsTrim d := by
      unfold requestedDateOf dateParamTrim
      rw [hd]
      show (if (jsTrim d == "") = true then none else some (jsTrim d)).getD todayNz = jsTrim d
      rw [if_neg (by simpa using hne)]
      rfl
    unfold getPuzzleCore
    rw [hreq]
    by_cases h1 : (!(isIsoDate (jsTrim d))) = true
    · rw [if_pos h1]
      exact ⟨_, rfl⟩
    · rw [if_neg h1, if_pos hfut]
      exact ⟨_, rfl⟩

theorem claim_c8_witness :
    (jsLt "2026-10-12" (jsTrim "2027-01-01") = true ∧
      (∃ e, getPuzzleCore "2026-10-12" (some "2027-01-01") demoRows = .error e)) ∧
    (∀ d cs, mapGet (buildPuzzles "2026-10-12" demoRows) d = some cs →
      jsLt "2026-10-12" d = false) :=
  ⟨⟨by decide,
    (claim_c8_no_future_puzzles "2026-10-12" (some "2027-01-01") demoRows).2.2
      "2027-01-01" rfl (by decide)⟩,
   (claim_c8_no_future_puzzles "2026-10-12" (some "2027-01-01") demoRows).1⟩

